import Mathlib

/-!
# high-cardinality-analyzer: rollup rule synthesis, rule names, query statistics

A shallow embedding of `rollup_rules.go` and `main.go`.

Go strings are modelled by `String` (a list of characters).  The Prometheus
expression tree (`promql/parser`) is modelled by the inductive type `Node`,
with one constructor per node kind of the parser and the fields this program
or its specification talks about.  A run-time panic of the Go program is the
error of `Except Panic`, and a nil rule is `none`.

The `float64` times of the statistics are kept in an arbitrary carrier `F`: the
statistics use its addition only, and the ranked list its order (the times of a
run are sums of finite decoded values, which are never NaN).

The decoder of the log lines (`json.Unmarshal`), the parser of durations and the
parser of expressions are parameters of the definitions that call them.
-/

namespace Hca

/-! ## Go standard library: strings -/

/-- Go `strings.ToLower`, on the ASCII letters (the operator and function names
of the parser are ASCII). -/
def ToLower (s : String) : String := ⟨s.data.map Char.toLower⟩

/-- Go `strings.EqualFold`: equality under simple case folding.  For the ASCII
letters of the literal this program compares against ("rate") the folding
orbits hold the upper and the lower case letter only. -/
def EqualFold (s t : String) : Bool :=
  s.data.map Char.toLower == t.data.map Char.toLower

/-- Go `strings.Trim s cutset`: drop the leading and the trailing characters that
belong to `cutset`. -/
def Trim (s cutset : String) : String :=
  ⟨List.dropWhile (fun c => cutset.data.contains c)
    (List.rdropWhile (fun c => cutset.data.contains c) s.data)⟩

/-- Go `strings.HasPrefix`. -/
def HasPrefix (s pre : String) : Bool := pre.data.isPrefixOf s.data

/-- Go `strings.HasSuffix`. -/
def HasSuffix (s suf : String) : Bool := suf.data.isSuffixOf s.data

/-! ## The expression tree of the parser -/

/-- The comparison of a label matcher (`labels.MatchType`). -/
inductive MatchType where
  | MatchEqual
  | MatchNotEqual
  | MatchRegexp
  | MatchNotRegexp
deriving DecidableEq, Repr

/-- A label matcher (`labels.Matcher`). -/
structure Matcher where
  Type_ : MatchType
  Name : String
  Value : String
deriving DecidableEq, Repr

/-- The label name that holds the metric name (`labels.MetricName`). -/
def MetricName : String := "__name__"

/-- The nodes of a parsed expression (`parser.Node`).  `Op` of an aggregate is
the operator as rendered by `n.Op.String()`, `Func` of a call is `n.Func.Name`;
durations are in nanoseconds. -/
inductive Node where
  | AggregateExpr (Op : String) (Expr : Node) (Param : Option Node)
      (Grouping : List String) (Without : Bool)
  | BinaryExpr (Op : String) (LHS RHS : Node)
  | Call (Func : String) (Args : List Node)
  | MatrixSelector (VectorSelector : Node) (Range : Int)
  | SubqueryExpr (Expr : Node) (Range Offset Step : Int)
  | NumberLiteral
  | ParenExpr (Expr : Node)
  | StringLiteral (Val : String)
  | UnaryExpr (Op : String) (Expr : Node)
  | VectorSelector (Name : String) (Offset : Int) (LabelMatchers : List Matcher)

/-- The children of a node (`parser.Children`), in the order `Walk` visits them. -/
def Children : Node → List Node
  | .AggregateExpr _ e none _ _ => [e]
  | .AggregateExpr _ e (some p) _ _ => [e, p]
  | .BinaryExpr _ l r => [l, r]
  | .Call _ args => args
  | .MatrixSelector v _ => [v]
  | .SubqueryExpr e _ _ _ => [e]
  | .NumberLiteral => []
  | .ParenExpr e => [e]
  | .StringLiteral _ => []
  | .UnaryExpr _ e => [e]
  | .VectorSelector _ _ _ => []

mutual
/-- The traversal `parser.Walk`: visit the node, walk its children in order,
then visit the nil node; an error of the visitor stops the walk.  The callback
gets the node (`none` for nil); the path argument, which no callback of this
program reads, is left out. -/
def Walk {σ ε : Type} (f : σ → Option Node → Except ε σ) (s : σ) : Node → Except ε σ
  | .AggregateExpr op e p g w => do
      let s ← f s (some (.AggregateExpr op e p g w))
      let s ← Walk f s e
      let s ← WalkOpt f s p
      f s none
  | .BinaryExpr op l r => do
      let s ← f s (some (.BinaryExpr op l r))
      let s ← Walk f s l
      let s ← Walk f s r
      f s none
  | .Call fn args => do
      let s ← f s (some (.Call fn args))
      let s ← WalkList f s args
      f s none
  | .MatrixSelector v r => do
      let s ← f s (some (.MatrixSelector v r))
      let s ← Walk f s v
      f s none
  | .SubqueryExpr e r o st => do
      let s ← f s (some (.SubqueryExpr e r o st))
      let s ← Walk f s e
      f s none
  | .NumberLiteral => do
      let s ← f s (some .NumberLiteral)
      f s none
  | .ParenExpr e => do
      let s ← f s (some (.ParenExpr e))
      let s ← Walk f s e
      f s none
  | .StringLiteral v => do
      let s ← f s (some (.StringLiteral v))
      f s none
  | .UnaryExpr op e => do
      let s ← f s (some (.UnaryExpr op e))
      let s ← Walk f s e
      f s none
  | .VectorSelector n o l => do
      let s ← f s (some (.VectorSelector n o l))
      f s none
/-- The walk of the optional parameter of an aggregate. -/
def WalkOpt {σ ε : Type} (f : σ → Option Node → Except ε σ) (s : σ) :
    Option Node → Except ε σ
  | none => pure s
  | some e => Walk f s e
/-- The walk of a list of children, left to right. -/
def WalkList {σ ε : Type} (f : σ → Option Node → Except ε σ) (s : σ) :
    List Node → Except ε σ
  | [] => pure s
  | e :: es => do
      let s ← Walk f s e
      WalkList f s es
end

/-- The traversal `parser.Inspect`. -/
def Inspect {σ ε : Type} (node : Node) (s : σ) (f : σ → Option Node → Except ε σ) :
    Except ε σ :=
  Walk f s node

/-! ## rollup_rules.go -/

/-- A rollup operation. -/
structure RollupOperationConfiguration where
  MetricName : String
  GroupBy : List String
  Aggregations : List String
deriving DecidableEq, Repr

/-- A transform operation. -/
structure TransformOperationConfiguration where
  Type_ : String
deriving DecidableEq, Repr

/-- A rollup rule transform: the two pointer fields of the Go struct. -/
structure TransformConfiguration where
  Rollup : Option RollupOperationConfiguration
  Transform : Option TransformOperationConfiguration
deriving DecidableEq, Repr

/-- A rollup rule. -/
structure RollupRuleConfiguration where
  Filter : String
  Transforms : List TransformConfiguration
  Name : String
deriving DecidableEq, Repr

/-- The keys of the map `ValidAggTypes`. -/
def ValidAggTypes : List String :=
  ["last", "min", "max", "mean", "median", "count", "sum", "sumsq", "stdev",
   "p10", "p20", "p30", "p40", "p50", "p60", "p70", "p80", "p90", "p95", "p99",
   "p999", "p9999"]

/-- A run-time panic of the Go program. -/
inductive Panic where
  | nilDereference
  | indexOutOfRange
deriving DecidableEq, Repr

/-- The variables the callback of `queryToRollupRule` closes over. -/
structure RuleState where
  valid : Bool
  rollupRule : RollupRuleConfiguration
deriving DecidableEq, Repr

/-- The first loop over the label matchers of a vector selector: the first
matcher on the metric name extends the metric name and the filter. -/
def metricNameLoop (r : RollupOperationConfiguration) (filter : String) :
    List Matcher → RollupOperationConfiguration × String
  | [] => (r, filter)
  | l :: ls =>
    if l.Name = MetricName then
      ({ r with MetricName := r.MetricName ++ (":" ++ l.Value) },
       filter ++ (l.Name ++ ":" ++ l.Value ++ " "))
    else metricNameLoop r filter ls

/-- The second loop over the label matchers: every matcher on another label
extends the group-by list, the metric name and the filter. -/
def labelLoop (r : RollupOperationConfiguration) (filter : String) :
    List Matcher → RollupOperationConfiguration × String
  | [] => (r, filter)
  | l :: ls =>
    if l.Name ≠ MetricName then
      labelLoop
        { r with GroupBy := r.GroupBy ++ [l.Name],
                 MetricName := r.MetricName ++ (":" ++ l.Name ++ ":" ++ l.Value) }
        (filter ++ (l.Name ++ ":" ++ l.Value ++ " ")) ls
    else labelLoop r filter ls

/-- The body run on the first transform that holds a rollup, for the label
matchers of the vector selector. -/
def selectorBody (matchers : List Matcher) (r : RollupOperationConfiguration)
    (filter : String) : RollupOperationConfiguration × String :=
  let r0 := { r with GroupBy := [] }
  let s1 := metricNameLoop r0 filter matchers
  let s2 := labelLoop s1.1 s1.2 matchers
  (s2.1, Trim s2.2 " ")

/-- The loop over `rollupRule.Transforms` of the vector selector case: the body
runs on the first transform whose `Rollup` is set, then the loop breaks. -/
def selectorLoop (matchers : List Matcher) (filter : String) :
    List TransformConfiguration → List TransformConfiguration × String
  | [] => ([], filter)
  | t :: ts =>
    match t.Rollup with
    | some r =>
      let s := selectorBody matchers r filter
      ({ t with Rollup := some s.1 } :: ts, s.2)
    | none =>
      let s := selectorLoop matchers filter ts
      (t :: s.1, s.2)

/-- The callback `queryToRollupRule` hands to `parser.Inspect`, as a step on the
closed-over variables.  The pointer `rollupRule` is never nil, so its nil checks
are left out; reading `Transforms[0].Rollup.MetricName` panics when the `Rollup`
pointer is nil. -/
def visit (st : RuleState) (node : Option Node) : Except Panic RuleState :=
  match node with
  | none => .ok st
  | some n =>
    if !st.valid then .ok st
    else
      match n with
      | .Call fn _ =>
        if EqualFold fn "rate" && st.rollupRule.Transforms.length == 1 then
          match st.rollupRule.Transforms[0]? with
          | none => .error .indexOutOfRange
          | some t0 =>
            match t0.Rollup with
            | none => .error .nilDereference
            | some r =>
              let t0 := { t0 with Rollup := some { r with MetricName := r.MetricName ++ (":" ++ fn) } }
              .ok { st with rollupRule := { st.rollupRule with
                      Transforms := [⟨none, some ⟨"Increase"⟩⟩, t0, ⟨none, some ⟨"Add"⟩⟩] } }
        else .ok { st with valid := false }
      | .AggregateExpr op _ _ _ _ =>
        if st.rollupRule.Transforms.length != 0 then .ok { st with valid := false }
        else if !(ValidAggTypes.contains (ToLower op)) then .ok { st with valid := false }
        else
          .ok { st with rollupRule := { st.rollupRule with
                  Transforms := st.rollupRule.Transforms ++
                    [⟨some { Aggregations := [op], MetricName := ToLower op, GroupBy := [] }, none⟩] } }
      | .MatrixSelector _ _ => .ok st
      | .VectorSelector _ _ matchers =>
        if st.rollupRule.Transforms.length == 0 then .ok { st with valid := false }
        else
          let s := selectorLoop matchers st.rollupRule.Filter st.rollupRule.Transforms
          .ok { st with rollupRule := { st.rollupRule with Transforms := s.1, Filter := s.2 } }
      | _ => .ok { st with valid := false }

/-- The function `queryToRollupRule`; `ParseExpr` is the parser of the
expression language.  The result `none` is the nil rule. -/
def queryToRollupRule (ParseExpr : String → Except String Node) (query : String) :
    Except Panic (Option RollupRuleConfiguration) :=
  match ParseExpr query with
  | .error _ => .ok none
  | .ok expr =>
    match Inspect expr (RuleState.mk true { Name := query, Filter := "", Transforms := [] }) visit with
    | .error p => .error p
    | .ok st => if !st.valid then .ok none else .ok (some st.rollupRule)

/-! ## The nodes of a tree -/

mutual
/-- The nodes of a tree in the order of the traversal (pre-order). -/
def nodes : Node → List Node
  | .AggregateExpr op e p g w => .AggregateExpr op e p g w :: (nodes e ++ nodesOpt p)
  | .BinaryExpr op l r => .BinaryExpr op l r :: (nodes l ++ nodes r)
  | .Call fn args => .Call fn args :: nodesList args
  | .MatrixSelector v r => .MatrixSelector v r :: nodes v
  | .SubqueryExpr e r o st => .SubqueryExpr e r o st :: nodes e
  | .NumberLiteral => [.NumberLiteral]
  | .ParenExpr e => .ParenExpr e :: nodes e
  | .StringLiteral v => [.StringLiteral v]
  | .UnaryExpr op e => .UnaryExpr op e :: nodes e
  | .VectorSelector n o l => [.VectorSelector n o l]
/-- The nodes of the optional parameter of an aggregate. -/
def nodesOpt : Option Node → List Node
  | none => []
  | some e => nodes e
/-- The nodes of a list of trees. -/
def nodesList : List Node → List Node
  | [] => []
  | e :: es => nodes e ++ nodesList es
end

/-- The node is an aggregate expression. -/
def isAggregateExpr : Node → Bool
  | .AggregateExpr _ _ _ _ _ => true
  | _ => false

/-- The node is a function call. -/
def isCall : Node → Bool
  | .Call _ _ => true
  | _ => false

/-- The node is of a kind, or carries a name, that the rule synthesis rejects
in every state: a kind other than aggregate, call, matrix selector and vector
selector, a call of a function other than "rate" (ignoring case), or an
aggregate whose operator is not in the whitelist (ignoring case). -/
def unsupported : Node → Bool
  | .AggregateExpr op _ _ _ _ => !(ValidAggTypes.contains (ToLower op))
  | .Call fn _ => !(EqualFold fn "rate")
  | .MatrixSelector _ _ => false
  | .VectorSelector _ _ _ => false
  | _ => true

/-- The three shapes of `Transforms` during the traversal. -/
def wellShaped (ts : List TransformConfiguration) : Prop :=
  ts = [] ∨ (∃ r, ts = [⟨some r, none⟩]) ∨
    ∃ r, ts = [⟨none, some ⟨"Increase"⟩⟩, ⟨some r, none⟩, ⟨none, some ⟨"Add"⟩⟩]

/-- The visits of a list of nodes, in order. -/
def visitAll (st : RuleState) (l : List Node) : Except Panic RuleState :=
  l.foldlM (fun s n => visit s (some n)) st

/-- The state the traversal of `queryToRollupRule` starts from. -/
def initialState (query : String) : RuleState :=
  ⟨true, { Name := query, Filter := "", Transforms := [] }⟩

/-! ## The rules the specification describes -/

/-- The matchers of a selector on labels other than the metric name. -/
def otherMatchers (ms : List Matcher) : List Matcher :=
  ms.filter (fun l => l.Name ≠ MetricName)

/-- The metric name of the rollup as the specification writes it: the prefix,
then ":" and the metric name when there is one, then ":name:value" for every
other matcher in matcher order. -/
def specMetricName (pre : String) (metricName : Option String) (ms : List Matcher) : String :=
  pre ++ (match metricName with
          | some v => ":" ++ v
          | none => "")
    ++ String.join ((otherMatchers ms).map (fun l => ":" ++ l.Name ++ ":" ++ l.Value))

/-- The filter as the specification writes it: the token "__name__:metricName"
when there is a metric name, then "name:value" for every other matcher, joined
by single spaces and trimmed. -/
def specFilter (metricName : Option String) (ms : List Matcher) : String :=
  Trim (" ".intercalate
    (metricName.toList.map (fun v => "__name__:" ++ v) ++
      (otherMatchers ms).map (fun l => l.Name ++ ":" ++ l.Value))) " "

/-- The rollup stage as the specification writes it. -/
def specRollup (pre op : String) (metricName : Option String) (ms : List Matcher) :
    TransformConfiguration :=
  ⟨some { MetricName := specMetricName pre metricName ms,
          GroupBy := (otherMatchers ms).map (fun l => l.Name),
          Aggregations := [op] }, none⟩

/-- The rule the specification gives for `op(f(selector[range]))`. -/
def specRateRule (op f : String) (metricName : Option String) (ms : List Matcher)
    (query : String) : RollupRuleConfiguration :=
  { Name := query,
    Filter := specFilter metricName ms,
    Transforms := [⟨none, some ⟨"Increase"⟩⟩,
                   specRollup (ToLower op ++ ":" ++ f) op metricName ms,
                   ⟨none, some ⟨"Add"⟩⟩] }

/-- The rule the specification gives for `op(selector)`. -/
def specAggRule (op : String) (metricName : Option String) (ms : List Matcher)
    (query : String) : RollupRuleConfiguration :=
  { Name := query,
    Filter := specFilter metricName ms,
    Transforms := [specRollup (ToLower op) op metricName ms] }

/-! ## main.go: rule names -/

/-- The class `\w` of the regular expression syntax of Go: `[0-9A-Za-z_]`. -/
def isWordChar (c : Char) : Bool := c.isAlphanum || c == '_'

/-- `re.ReplaceAllLiteralString src repl` for `re = [^\w]`: every character
outside `\w` is a match, and is replaced by `repl`. -/
def reReplaceAllLiteralString (src repl : String) : String :=
  ⟨(src.data.map (fun c => if isWordChar c then [c] else repl.data)).flatten⟩

/-- The scan of `strings.ReplaceAll` for a non-empty `old`: `skip` counts the
characters of the current match still to pass over. -/
def replaceAllAux (old new : List Char) : Nat → List Char → List Char
  | _, [] => []
  | skip + 1, _ :: cs => replaceAllAux old new skip cs
  | 0, c :: cs =>
    if old.isPrefixOf (c :: cs) then new ++ replaceAllAux old new (old.length - 1) cs
    else c :: replaceAllAux old new 0 cs

/-- Go `strings.ReplaceAll s old new` for a non-empty `old`: the non-overlapping
matches of `old`, found left to right, are replaced by `new`. -/
def ReplaceAll (s old new : String) : String :=
  ⟨replaceAllAux old.data new.data 0 s.data⟩

/-- The loop `for strings.HasPrefix(s, ":") { s = s[1:] }`. -/
def stripPrefixLoop : List Char → List Char
  | [] => []
  | c :: cs => if HasPrefix ⟨c :: cs⟩ ":" then stripPrefixLoop cs else c :: cs

/-- The loop `for strings.HasSuffix(s, ":") { s = s[0 : len(s)-1] }`, run for at
most `fuel` iterations. -/
def stripSuffixLoop : Nat → List Char → List Char
  | 0, s => s
  | fuel + 1, s => if HasSuffix ⟨s⟩ ":" then stripSuffixLoop fuel s.dropLast else s

/-- The function `toRuleName`.  The second loop removes one character per
iteration, so the length of the string bounds its iterations. -/
def toRuleName (expr : String) : String :=
  let s := reReplaceAllLiteralString expr ":"
  let s := ReplaceAll s "::" ":"
  let s := stripPrefixLoop s.data
  ⟨stripSuffixLoop s.length s⟩

/-! ## main.go: statistics -/

/-- The timings of a logged query, in seconds. -/
structure QueryStatsTimings (F : Type) where
  EvalTotalTime : F
  ResultSortTime : F
  QueryPreparationTime : F
  InnerEvalTime : F
  ExecQueueTime : F
  ExecTotalTime : F

/-- The statistics of an aggregate expression; `count` is a `uint32`. -/
structure queryStats (F : Type) where
  query : String
  tookTime : F
  count : Nat
deriving DecidableEq, Repr

/-- The map `slowQueries`, as the list of its entries. -/
abbrev StatsMap (F : Type) := List (String × queryStats F)

/-- The map read `slowQueries[qs]`. -/
def mapGet {F : Type} : StatsMap F → String → Option (queryStats F)
  | [], _ => none
  | kv :: rest, qs => if kv.1 = qs then some kv.2 else mapGet rest qs

/-- The map write `slowQueries[qs] = v`, which is also the write through the
pointer the map holds for `qs`. -/
def mapSet {F : Type} (qs : String) (v : queryStats F) : StatsMap F → StatsMap F
  | [] => [(qs, v)]
  | kv :: rest => if kv.1 = qs then (qs, v) :: rest else kv :: mapSet qs v rest

/-- The callback `main` hands to `parser.Inspect` for one logged query, as a step
on the map; `render` is the method `String` of the nodes and `timings` are the
timings of the logged query. -/
def observe {F : Type} [Add F] (render : Node → String) (timings : QueryStatsTimings F)
    (m : StatsMap F) (node : Option Node) : Except Panic (StatsMap F) :=
  match node with
  | none => .ok m
  | some n =>
    match n with
    | .AggregateExpr _ _ _ _ _ =>
      let qs := render n
      match mapGet m qs with
      | some q =>
        .ok (mapSet qs { q with count := (q.count + 1) % 2 ^ 32,
                                tookTime := q.tookTime + timings.InnerEvalTime } m)
      | none =>
        .ok (mapSet qs { query := qs, count := 1, tookTime := timings.InnerEvalTime } m)
    | _ => .ok m

/-- Go `sort.Slice`: the slice sorted by `less`.  The library fixes no order
among elements that `less` does not separate; the model is an insertion sort. -/
def sortSlice {α : Type} (less : α → α → Bool) (l : List α) : List α :=
  l.insertionSort (fun a b => less b a = false)

/-- The ranked list of `main`: the entries of the map with at least `minCount`
occurrences, in the iteration order of the map, sorted by `tookTime`, largest
first. -/
def rank {F : Type} [LinearOrder F] (m : StatsMap F) (minCount : Nat) : List (queryStats F) :=
  let arr := (m.map (fun kv => kv.2)).filter (fun v => decide (v.count ≥ minCount))
  sortSlice (fun a b => decide (a.tookTime > b.tookTime)) arr


/-- The collapse of "::" in `toRuleName`, on the list of characters. -/
abbrev collapse (l : List Char) : List Char := replaceAllAux [':', ':'] [':'] 0 l

/-- The number of aggregate expressions of a tree whose rendering is `k`. -/
def aggregateCount (render : Node → String) (k : String) (t : Node) : Nat :=
  (nodes t).countP (fun n => isAggregateExpr n && render n == k)

/-- The entry of the key `k` after `n` sightings of `k` in a query whose time is
`t`, from the entry `old` before: a first sighting of an absent key stores `t`
and the count 1, every other sighting adds `t` and increments the `uint32`. -/
def statsAfter {F : Type} [Add F] (old : Option (queryStats F)) (k : String) (t : F) (n : Nat) :
    Option (queryStats F) :=
  match old, n with
  | none, 0 => none
  | none, n + 1 => some ⟨k, Nat.iterate (fun x => x + t) n t, (n + 1) % 2 ^ 32⟩
  | some q, n => some ⟨q.query, Nat.iterate (fun x => x + t) n q.tookTime, (q.count + n) % 2 ^ 32⟩


/-! ## Example inputs -/

/-- The label matchers of `query_duration_seconds{tag1="foo",tag2="bar"}`; the
parser puts the matcher on the metric name last. -/
def taggedMatchers : List Matcher :=
  [⟨.MatchEqual, "tag1", "foo"⟩, ⟨.MatchEqual, "tag2", "bar"⟩,
   ⟨.MatchEqual, "__name__", "query_duration_seconds"⟩]

/-- The tree of `sum(rate(query_duration_seconds{tag1="foo",tag2="bar"}[1m]))`. -/
def taggedRateTree : Node :=
  .AggregateExpr "sum"
    (.Call "rate" [.MatrixSelector (.VectorSelector "query_duration_seconds" 0 taggedMatchers)
      60000000000]) none [] false

/-- The text of the query of `taggedRateTree`. -/
def taggedRateQuery : String :=
  "sum(rate(query_duration_seconds\x7btag1=\"foo\",tag2=\"bar\"\x7d[1m]))"

/-- The label matchers of `query_count`. -/
def countMatchers : List Matcher := [⟨.MatchEqual, "__name__", "query_count"⟩]

/-- The tree of `sum(query_count)`. -/
def sumTree : Node :=
  .AggregateExpr "sum" (.VectorSelector "query_count" 0 countMatchers) none [] false

/-- The tree of `sum(max(query_count))`. -/
def nestedTree : Node :=
  .AggregateExpr "sum"
    (.AggregateExpr "max" (.VectorSelector "query_count" 0 countMatchers) none [] false)
    none [] false

/-- The label matchers of the selector `{job="x"}`, which names no metric. -/
def jobMatchers : List Matcher := [⟨.MatchEqual, "job", "x"⟩]

/-- The tree of `sum(rate({job="x"}[1m]))`. -/
def jobRateTree : Node :=
  .AggregateExpr "sum"
    (.Call "rate" [.MatrixSelector (.VectorSelector "" 0 jobMatchers) 60000000000])
    none [] false

/-- The text of the query of `jobRateTree`. -/
def jobRateQuery : String := "sum(rate(\x7bjob=\"x\"\x7d[1m]))"

/-- The text of the query of `jobSumTree`. -/
def jobSumQuery : String := "sum(\x7bjob=\"x\"\x7d)"

/-- The tree of `sum({job="x"})`. -/
def jobSumTree : Node :=
  .AggregateExpr "sum" (.VectorSelector "" 0 jobMatchers) none [] false

/-- The tree of `sum(query_count) / 2`. -/
def binaryTree : Node := .BinaryExpr "/" sumTree .NumberLiteral

/-- The tree of `rate(query_count[1m])`. -/
def bareRateTree : Node :=
  .Call "rate" [.MatrixSelector (.VectorSelector "query_count" 0 countMatchers) 60000000000]

/-- A rendering of the nodes for the examples: the operator of an aggregate. -/
def opRender : Node → String
  | .AggregateExpr op _ _ _ _ => op
  | _ => ""

/-- A map with one entry, with times in whole seconds. -/
def oneEntryMap : StatsMap Nat := [("sum", ⟨"sum", 5, 2⟩)]

/-- Timings with an inner evaluation time of 3 seconds. -/
def threeSeconds : QueryStatsTimings Nat := ⟨0, 0, 0, 3, 0, 0⟩

/-- A map with three entries, with times in whole seconds. -/
def threeEntryMap : StatsMap Nat :=
  [("a", ⟨"a", 5, 2⟩), ("b", ⟨"b", 9, 1⟩), ("c", ⟨"c", 7, 3⟩)]

/-! ## main.go: rollup mode -/

/-- The loop of `main` in rollup mode (`for _, v := range arr`): the query of
every ranked entry is converted, a rule is appended to the rules of the
configuration, and the query of a nil rule to `failedQueries`. -/
def rollupLoop {F : Type} (ParseExpr : String → Except String Node) :
    List (queryStats F) → List RollupRuleConfiguration → List String →
      Except Panic (List RollupRuleConfiguration × List String)
  | [], rules, failedQueries => .ok (rules, failedQueries)
  | v :: rest, rules, failedQueries =>
    match queryToRollupRule ParseExpr v.query with
    | .error p => .error p
    | .ok (some r) => rollupLoop ParseExpr rest (rules ++ [r]) failedQueries
    | .ok none => rollupLoop ParseExpr rest rules (failedQueries ++ [v.query])

/-- The rollup mode of `main`: the rules of the configuration and the list
`failedQueries`, both empty before the loop. -/
def rollupMode {F : Type} (ParseExpr : String → Except String Node)
    (arr : List (queryStats F)) : Except Panic (List RollupRuleConfiguration × List String) :=
  rollupLoop ParseExpr arr [] []

/-- The rule of one query, when `queryToRollupRule` returns one. -/
def ruleOf (ParseExpr : String → Except String Node) (query : String) :
    Option RollupRuleConfiguration :=
  match queryToRollupRule ParseExpr query with
  | .ok (some r) => some r
  | _ => none

/-- The query itself, when `queryToRollupRule` returns the nil rule for it. -/
def failureOf (ParseExpr : String → Except String Node) (query : String) : Option String :=
  match queryToRollupRule ParseExpr query with
  | .ok none => some query
  | _ => none

/-- A parser for the examples: it knows two query texts. -/
def exampleParse (query : String) : Except String Node :=
  if query = "sum(query_count)" then .ok sumTree
  else if query = "sum(max(query_count))" then .ok nestedTree
  else .error "parse error"

/-- A ranked list for the examples: a query without rule between two with one. -/
def exampleRanked : List (queryStats Nat) :=
  [⟨"sum(query_count)", 9, 1⟩, ⟨"sum(max(query_count))", 7, 3⟩, ⟨"sum(query_count)", 5, 2⟩]

/-! ## main.go: the lines of the query log -/

/-- The parameters of a logged query. -/
structure QueryParams where
  Query : String
deriving DecidableEq, Repr

/-- The statistics of a logged query: the pointer to its timings. -/
structure QueryStats (F : Type) where
  Timings : Option (QueryStatsTimings F)

/-- A decoded line of the query log: both fields are pointers, nil when the
line does not hold the object. -/
structure Query (F : Type) where
  Params : Option QueryParams
  Stats : Option (QueryStats F)

/-- The body of the loop of `main` over the lines of the log, for one line that
was read: `.ok` with the map is the end of the iteration (`continue` included),
`.error` a panic.  `Unmarshal` is `json.Unmarshal` into a fresh `Query`,
`ParseDuration` is `time.ParseDuration` of the seconds printed with `%fs`, in
nanoseconds; the arguments of the log calls are evaluated before the call. -/
def processLine {F : Type} [Add F] (Unmarshal : String → Except String (Query F))
    (ParseDuration : F → Except String Int) (ParseExpr : String → Except String Node)
    (render : Node → String) (optMinQueryTime : Int) (slowQueries : StatsMap F)
    (line : String) : Except Panic (StatsMap F) :=
  match Unmarshal line with
  | .error _ => .ok slowQueries
  | .ok query =>
    match query.Stats with
    | none => .error .nilDereference
    | some stats =>
      match stats.Timings with
      | none => .error .nilDereference
      | some timings =>
        match ParseDuration timings.InnerEvalTime with
        | .error _ => .ok slowQueries
        | .ok qd =>
          if qd < optMinQueryTime then .ok slowQueries
          else
            match query.Params with
            | none => .error .nilDereference
            | some params =>
              match ParseExpr params.Query with
              | .error _ => .ok slowQueries
              | .ok expr => Inspect expr slowQueries (observe render timings)

/-- The loop of `main` over the lines of the log. -/
def processLog {F : Type} [Add F] (Unmarshal : String → Except String (Query F))
    (ParseDuration : F → Except String Int) (ParseExpr : String → Except String Node)
    (render : Node → String) (optMinQueryTime : Int) (slowQueries : StatsMap F)
    (lines : List String) : Except Panic (StatsMap F) :=
  lines.foldlM (processLine Unmarshal ParseDuration ParseExpr render optMinQueryTime) slowQueries

/-- A decoder for the examples, as `json.Unmarshal` decodes these lines: an
object without "stats", one whose "stats" has no "timings", one without
"params", a complete one, and a line that is not JSON. -/
def exampleUnmarshal (line : String) : Except String (Query Nat) :=
  if line = "\x7b\x7d" then .ok ⟨none, none⟩
  else if line = "\x7b\"params\":\x7b\"query\":\"sum(query_count)\"\x7d,\"stats\":\x7b\x7d\x7d" then
    .ok ⟨some ⟨"sum(query_count)"⟩, some ⟨none⟩⟩
  else if line = "\x7b\"stats\":\x7b\"timings\":\x7b\"innerEvalTime\":3\x7d\x7d\x7d" then
    .ok ⟨none, some ⟨some threeSeconds⟩⟩
  else if line = "\x7b\"params\":\x7b\"query\":\"sum(query_count)\"\x7d,\"stats\":\x7b\"timings\":\x7b\"innerEvalTime\":3\x7d\x7d\x7d" then
    .ok ⟨some ⟨"sum(query_count)"⟩, some ⟨some threeSeconds⟩⟩
  else .error "invalid character"

/-- The duration of whole seconds, for the examples. -/
def exampleDuration (seconds : Nat) : Except String Int := .ok (seconds * 1000000000)

/-! ## What the rule synthesis reads of a tree -/

/-- A label matcher without its comparison. -/
def eraseMatcher (l : Matcher) : Matcher := { l with Type_ := .MatchEqual }

mutual
/-- The tree with everything erased but the kinds of the nodes, the operator of
an aggregate, the name of the function of a call and the name and value of the
label matchers. -/
def erase : Node → Node
  | .AggregateExpr op e p _ _ => .AggregateExpr op (erase e) (eraseOpt p) [] false
  | .BinaryExpr _ l r => .BinaryExpr "" (erase l) (erase r)
  | .Call fn args => .Call fn (eraseList args)
  | .MatrixSelector v _ => .MatrixSelector (erase v) 0
  | .SubqueryExpr e _ _ _ => .SubqueryExpr (erase e) 0 0 0
  | .NumberLiteral => .NumberLiteral
  | .ParenExpr e => .ParenExpr (erase e)
  | .StringLiteral _ => .StringLiteral ""
  | .UnaryExpr _ e => .UnaryExpr "" (erase e)
  | .VectorSelector _ _ l => .VectorSelector "" 0 (l.map eraseMatcher)
/-- The erasure of the optional parameter of an aggregate. -/
def eraseOpt : Option Node → Option Node
  | none => none
  | some e => some (erase e)
/-- The erasure of a list of trees. -/
def eraseList : List Node → List Node
  | [] => []
  | e :: es => erase e :: eraseList es
end

/-- The filter and the transforms of a result of `queryToRollupRule`. -/
def filterAndTransforms (r : Except Panic (Option RollupRuleConfiguration)) :
    Except Panic (Option (String × List TransformConfiguration)) :=
  match r with
  | .error p => .error p
  | .ok none => .ok none
  | .ok (some rule) => .ok (some (rule.Filter, rule.Transforms))

/-- The state with another query text as the name of the rule. -/
def withName (query : String) (st : RuleState) : RuleState :=
  { st with rollupRule := { st.rollupRule with Name := query } }

/-- The tree of `sum by (job) (rate(query_duration_seconds{tag1!="foo",tag2=~"bar"}[5m] offset 1h))`:
the tree of the test with a grouping, other comparisons, another range and an
offset. -/
def variantRateTree : Node :=
  .AggregateExpr "sum"
    (.Call "rate" [.MatrixSelector (.VectorSelector "query_duration_seconds" 3600000000000
      [⟨.MatchNotEqual, "tag1", "foo"⟩, ⟨.MatchRegexp, "tag2", "bar"⟩,
       ⟨.MatchEqual, "__name__", "query_duration_seconds"⟩]) 300000000000]) none ["job"] false

/-! ## The states of the rule synthesis -/

/-- The node is a matrix selector. -/
def isMatrixSelector : Node → Bool
  | .MatrixSelector _ _ => true
  | _ => false

/-- The node is a vector selector. -/
def isVectorSelector : Node → Bool
  | .VectorSelector _ _ _ => true
  | _ => false

/-- The states of the specification: no aggregate accepted yet, an aggregate
accepted, the rate call accepted as well, and the invalid state. -/
inductive Phase where
  | start
  | aggregated
  | wrapped
  | invalid
deriving DecidableEq, Repr

/-- The state of the specification that a state of the callback is in. -/
def phaseOf (st : RuleState) : Phase :=
  if st.valid then
    match st.rollupRule.Transforms with
    | [] => .start
    | [_] => .aggregated
    | _ => .wrapped
  else .invalid

/-- The transitions of the state machine of the specification. -/
def phaseStep : Phase → Node → Phase
  | .invalid, _ => .invalid
  | .start, n =>
    if isMatrixSelector n then .start
    else if isAggregateExpr n && !unsupported n then .aggregated
    else .invalid
  | .aggregated, n =>
    if isMatrixSelector n || isVectorSelector n then .aggregated
    else if isCall n && !unsupported n then .wrapped
    else .invalid
  | .wrapped, n =>
    if isMatrixSelector n || isVectorSelector n then .wrapped
    else .invalid

/-- The lists of nodes that the state machine accepts after an aggregate: matrix
selectors, then a supported aggregate, then supported nodes other than
aggregates, at most one of them a call. -/
def accepted (l : List Node) : Prop :=
  ∃ pre a post, l = pre ++ a :: post ∧ (∀ n ∈ pre, isMatrixSelector n = true) ∧
    isAggregateExpr a = true ∧ unsupported a = false ∧
    (∀ n ∈ post, unsupported n = false ∧ isAggregateExpr n = false) ∧
    post.countP isCall ≤ 1

/-! ## The filter and the aggregations the specification describes -/

/-- The value of the first matcher on the metric name, if there is one. -/
def firstMetricName (ms : List Matcher) : Option String :=
  ((ms.filter (fun l => l.Name = MetricName)).head?).map (fun l => l.Value)

/-- The filter as the claim on the order of its tokens writes it: the tokens
"label:value" of the matchers in the order of the list of matchers, joined by
single spaces, without leading or trailing space. -/
def listOrderFilter (ms : List Matcher) : String :=
  Trim (" ".intercalate (ms.map (fun l => l.Name ++ ":" ++ l.Value))) " "

/-- The transforms hold one rollup stage, alone or between Increase and Add,
and its aggregations are `[op]`. -/
def hasAggregations (op : String) (ts : List TransformConfiguration) : Prop :=
  ∃ r : RollupOperationConfiguration, r.Aggregations = [op] ∧
    (ts = [⟨some r, none⟩] ∨
     ts = [⟨none, some ⟨"Increase"⟩⟩, ⟨some r, none⟩, ⟨none, some ⟨"Add"⟩⟩])

/-- The operators of the aggregate nodes of the list are in lower case.  This
is what the parser returns: `n.Op.String()` is the keyword of the operator in
lower case, whatever the casing of the operator in the query text. -/
def renderedLowercase (l : List Node) : Prop :=
  ∀ n ∈ l, ∀ op e p g w, n = Node.AggregateExpr op e p g w → ToLower op = op

/-! # Theorems -/

/-! ## The traversal visits the nodes in pre-order -/

theorem bind_visit_nil {σ ε : Type} (f : σ → Option Node → Except ε σ)
    (hnil : ∀ s, f s none = .ok s) (x : Except ε σ) :
    (x >>= fun s => f s none) = x := by
  cases x with
  | error e => rfl
  | ok a => exact hnil a

mutual
theorem Walk_eq_foldlM {σ ε : Type} (f : σ → Option Node → Except ε σ)
    (hnil : ∀ s, f s none = .ok s) (s : σ) :
    ∀ e : Node, Walk f s e = (nodes e).foldlM (fun s n => f s (some n)) s
  | .AggregateExpr op e p g w => by
      simp only [Walk, nodes, List.foldlM_cons, List.foldlM_append, bind_visit_nil f hnil,
        fun s => Walk_eq_foldlM f hnil s e, fun s => WalkOpt_eq_foldlM f hnil s p]
  | .BinaryExpr op l r => by
      simp only [Walk, nodes, List.foldlM_cons, List.foldlM_append, bind_visit_nil f hnil,
        fun s => Walk_eq_foldlM f hnil s l, fun s => Walk_eq_foldlM f hnil s r]
  | .Call fn args => by
      simp only [Walk, nodes, List.foldlM_cons, bind_visit_nil f hnil,
        fun s => WalkList_eq_foldlM f hnil s args]
  | .MatrixSelector v r => by
      simp only [Walk, nodes, List.foldlM_cons, bind_visit_nil f hnil,
        fun s => Walk_eq_foldlM f hnil s v]
  | .SubqueryExpr e r o st => by
      simp only [Walk, nodes, List.foldlM_cons, bind_visit_nil f hnil,
        fun s => Walk_eq_foldlM f hnil s e]
  | .NumberLiteral => by
      simp only [Walk, nodes, List.foldlM_cons, List.foldlM_nil, bind_visit_nil f hnil, bind_pure]
  | .ParenExpr e => by
      simp only [Walk, nodes, List.foldlM_cons, bind_visit_nil f hnil,
        fun s => Walk_eq_foldlM f hnil s e]
  | .StringLiteral v => by
      simp only [Walk, nodes, List.foldlM_cons, List.foldlM_nil, bind_visit_nil f hnil, bind_pure]
  | .UnaryExpr op e => by
      simp only [Walk, nodes, List.foldlM_cons, bind_visit_nil f hnil,
        fun s => Walk_eq_foldlM f hnil s e]
  | .VectorSelector n o l => by
      simp only [Walk, nodes, List.foldlM_cons, List.foldlM_nil, bind_visit_nil f hnil, bind_pure]
theorem WalkOpt_eq_foldlM {σ ε : Type} (f : σ → Option Node → Except ε σ)
    (hnil : ∀ s, f s none = .ok s) (s : σ) :
    ∀ p : Option Node, WalkOpt f s p = (nodesOpt p).foldlM (fun s n => f s (some n)) s
  | none => rfl
  | some e => by
      simp only [WalkOpt, nodesOpt]
      exact Walk_eq_foldlM f hnil s e
theorem WalkList_eq_foldlM {σ ε : Type} (f : σ → Option Node → Except ε σ)
    (hnil : ∀ s, f s none = .ok s) (s : σ) :
    ∀ es : List Node, WalkList f s es = (nodesList es).foldlM (fun s n => f s (some n)) s
  | [] => rfl
  | e :: es => by
      simp only [WalkList, nodesList, List.foldlM_append,
        fun s => Walk_eq_foldlM f hnil s e, fun s => WalkList_eq_foldlM f hnil s es]
end


/-! ## The callback of the rule synthesis -/

theorem visit_invalid (st : RuleState) (n : Option Node) (h : st.valid = false) :
    visit st n = .ok st := by
  cases n with
  | none => rfl
  | some n => simp [visit, h]

/-- One visit from a well-shaped state: no panic, and what it does to the flag
and to the shape. -/
theorem visit_spec (st : RuleState) (n : Node) (hw : wellShaped st.rollupRule.Transforms) :
    ∃ st', visit st (some n) = .ok st' ∧ wellShaped st'.rollupRule.Transforms ∧
      (st.valid = false → st'.valid = false) ∧
      (st.rollupRule.Transforms ≠ [] → st'.rollupRule.Transforms ≠ []) ∧
      (isAggregateExpr n = true → st'.valid = false ∨ st'.rollupRule.Transforms ≠ []) ∧
      (isAggregateExpr n = true → st.rollupRule.Transforms ≠ [] → st'.valid = false) ∧
      (unsupported n = true → st'.valid = false) ∧
      (isCall n = true → st.rollupRule.Transforms = [] → st'.valid = false) ∧
      (isAggregateExpr n = false → st.rollupRule.Transforms = [] →
        st'.rollupRule.Transforms = []) := by
  by_cases hv : st.valid = false
  · refine ⟨st, visit_invalid st _ hv, hw, fun _ => hv, fun h => h, fun _ => Or.inl hv,
      fun _ _ => hv, fun _ => hv, fun _ _ => hv, fun _ h => h⟩
  · have hv' : st.valid = true := by simpa using hv
    obtain ⟨valid, ⟨filter, ts, name⟩⟩ := st
    simp only at hw hv' ⊢
    subst hv'
    rcases hw with h | ⟨r, h⟩ | ⟨r, h⟩ <;> subst h <;> cases n <;>
      simp [visit, isAggregateExpr, isCall, unsupported, wellShaped, selectorLoop] <;>
      split <;> simp_all

theorem visitAll_invalid (st : RuleState) (l : List Node) (h : st.valid = false) :
    visitAll st l = .ok st := by
  induction l with
  | nil => rfl
  | cons n ns ih =>
    unfold visitAll at ih ⊢
    rw [List.foldlM_cons, visit_invalid st _ h]
    exact ih

theorem visitAll_cons (st st' : RuleState) (n : Node) (l : List Node)
    (h : visit st (some n) = .ok st') : visitAll st (n :: l) = visitAll st' l := by
  unfold visitAll
  rw [List.foldlM_cons, h]
  rfl

/-- The visits of a list of nodes from a well-shaped state: no panic, and what
they do to the flag and to the shape. -/
theorem visitAll_spec (l : List Node) :
    ∀ st : RuleState, wellShaped st.rollupRule.Transforms →
    ∃ st', visitAll st l = .ok st' ∧ wellShaped st'.rollupRule.Transforms ∧
      (st.valid = false → st'.valid = false) ∧
      (st.rollupRule.Transforms ≠ [] → st'.rollupRule.Transforms ≠ []) ∧
      (1 ≤ l.countP isAggregateExpr → st'.valid = false ∨ st'.rollupRule.Transforms ≠ []) ∧
      (1 ≤ l.countP isAggregateExpr → st.rollupRule.Transforms ≠ [] → st'.valid = false) ∧
      (2 ≤ l.countP isAggregateExpr → st'.valid = false) ∧
      ((∃ n ∈ l, unsupported n = true) → st'.valid = false) ∧
      ((∀ n ∈ l, isAggregateExpr n = false) → st.rollupRule.Transforms = [] →
        st'.rollupRule.Transforms = []) := by
  induction l with
  | nil =>
    intro st hw
    exact ⟨st, rfl, hw, fun h => h, fun h => h, by simp, by simp, by simp, by simp,
      fun _ h => h⟩
  | cons n ns ih =>
    intro st hw
    obtain ⟨s1, h1, hw1, a1, b1, c1, d1, e1, f1, g1⟩ := visit_spec st n hw
    obtain ⟨s2, h2, hw2, a2, b2, c2, d2, e2, f2, g2⟩ := ih s1 hw1
    refine ⟨s2, by rw [visitAll_cons st s1 n ns h1]; exact h2, hw2, fun h => a2 (a1 h),
      fun h => b2 (b1 h), ?_, ?_, ?_, ?_, ?_⟩
    · intro hc
      by_cases hn : isAggregateExpr n = true
      · rcases c1 hn with h | h
        · exact Or.inl (a2 h)
        · exact Or.inr (b2 h)
      · have : 1 ≤ ns.countP isAggregateExpr := by
          rw [List.countP_cons_of_neg _ _ hn] at hc; exact hc
        exact c2 this
    · intro hc hne
      by_cases hn : isAggregateExpr n = true
      · exact a2 (d1 hn hne)
      · have : 1 ≤ ns.countP isAggregateExpr := by
          rw [List.countP_cons_of_neg _ _ hn] at hc; exact hc
        exact d2 this (b1 hne)
    · intro hc
      by_cases hn : isAggregateExpr n = true
      · have : 1 ≤ ns.countP isAggregateExpr := by
          rw [List.countP_cons_of_pos _ _ hn] at hc; omega
        rcases c1 hn with h | h
        · exact a2 h
        · exact d2 this h
      · have : 2 ≤ ns.countP isAggregateExpr := by
          rw [List.countP_cons_of_neg _ _ hn] at hc; exact hc
        exact e2 this
    · rintro ⟨m, hm, hu⟩
      rcases List.mem_cons.1 hm with h | h
      · subst h; exact a2 (e1 hu)
      · exact f2 ⟨m, h, hu⟩
    · intro hall hnil
      exact g2 (fun m hm => hall m (List.mem_cons_of_mem _ hm))
        (g1 (hall n (List.mem_cons_self _ _)) hnil)

theorem visitAll_append (st : RuleState) (l₁ l₂ : List Node) :
    visitAll st (l₁ ++ l₂) = visitAll st l₁ >>= fun s => visitAll s l₂ := by
  unfold visitAll
  rw [List.foldlM_append]

theorem queryToRollupRule_eq (ParseExpr : String → Except String Node) (query : String)
    (expr : Node) (hparse : ParseExpr query = .ok expr) :
    queryToRollupRule ParseExpr query =
      match visitAll (initialState query) (nodes expr) with
      | .error p => .error p
      | .ok st => if !st.valid then .ok none else .ok (some st.rollupRule) := by
  unfold queryToRollupRule
  rw [hparse]
  simp only [Inspect]
  rw [Walk_eq_foldlM visit (fun _ => rfl)]
  rfl

theorem queryToRollupRule_of_invalid (ParseExpr : String → Except String Node)
    (query : String) (expr : Node) (hparse : ParseExpr query = .ok expr) (st : RuleState)
    (hrun : visitAll (initialState query) (nodes expr) = .ok st) (hv : st.valid = false) :
    queryToRollupRule ParseExpr query = .ok none := by
  rw [queryToRollupRule_eq ParseExpr query expr hparse, hrun]
  simp [hv]

/-! ## Lemmas on strings -/

theorem data_intercalate_go (acc s : String) (l : List String) :
    (String.intercalate.go acc s l).data = acc.data ++ (l.map (fun a => s.data ++ a.data)).flatten := by
  induction l generalizing acc with
  | nil => simp [String.intercalate.go]
  | cons a as ih => simp [String.intercalate.go, ih, List.append_assoc]

theorem data_intercalate_cons (s a : String) (l : List String) :
    (s.intercalate (a :: l)).data = a.data ++ (l.map (fun b => s.data ++ b.data)).flatten := by
  simp [String.intercalate, data_intercalate_go]

theorem data_join_trailing (a : String) (l : List String) :
    (String.join ((a :: l).map (fun t => t ++ " "))).data =
      (" ".intercalate (a :: l)).data ++ [' '] := by
  rw [data_intercalate_cons]
  induction l generalizing a with
  | nil => simp [String.data_join]
  | cons b bs ih =>
    have := ih b
    simp [String.data_join, List.append_assoc] at this ⊢
    exact this

theorem Trim_append_space (s : String) : Trim (s ++ " ") " " = Trim s " " := by
  unfold Trim
  congr 2
  simp only [String.data_append]
  exact List.rdropWhile_concat_pos _ _ _ (by decide)

theorem Trim_join_trailing (toks : List String) :
    Trim (String.join (toks.map (fun t => t ++ " "))) " " = Trim (" ".intercalate toks) " " := by
  cases toks with
  | nil => rfl
  | cons a l =>
    rw [← Trim_append_space (" ".intercalate (a :: l))]
    congr 1
    apply String.ext
    rw [data_join_trailing]
    rfl


/-! ## Lemmas on the loops of the vector selector case -/

theorem labelLoop_eq (r : RollupOperationConfiguration) (filter : String) (ms : List Matcher) :
    labelLoop r filter ms =
      ({ r with
          GroupBy := r.GroupBy ++ (otherMatchers ms).map (fun l => l.Name),
          MetricName := r.MetricName ++
            String.join ((otherMatchers ms).map (fun l => ":" ++ l.Name ++ ":" ++ l.Value)) },
       filter ++ String.join ((otherMatchers ms).map (fun l => l.Name ++ ":" ++ l.Value ++ " "))) := by
  induction ms generalizing r filter with
  | nil =>
    simp only [labelLoop, otherMatchers, List.filter_nil, List.map_nil, List.append_nil]
    congr 1
    · cases r; simp [String.join]
    · simp [String.join]
  | cons l ls ih =>
    unfold labelLoop
    by_cases h : l.Name = MetricName
    · simp only [h, ne_eq, not_true_eq_false, ↓reduceIte, ih]
      simp [otherMatchers, h]
    · simp only [ne_eq, h, not_false_eq_true, ↓reduceIte, ih]
      simp only [otherMatchers, ne_eq, h, not_false_eq_true, decide_True, List.filter_cons_of_pos,
        List.map_cons, List.append_assoc, List.singleton_append]
      congr 1
      · congr 1
        apply String.ext
        simp [String.data_join, List.append_assoc]
      · apply String.ext
        simp [String.data_join, List.append_assoc]

theorem metricNameLoop_eq (r : RollupOperationConfiguration) (filter : String)
    (ms : List Matcher) :
    metricNameLoop r filter ms =
      match (ms.filter (fun l => l.Name = MetricName)).head? with
      | none => (r, filter)
      | some l =>
        ({ r with MetricName := r.MetricName ++ (":" ++ l.Value) },
         filter ++ ("__name__" ++ ":" ++ l.Value ++ " ")) := by
  induction ms with
  | nil => rfl
  | cons l ls ih =>
    unfold metricNameLoop
    by_cases h : l.Name = MetricName
    · simp only [h, ↓reduceIte, decide_True, List.filter_cons_of_pos, List.head?_cons]
      rfl
    · simp only [h, ↓reduceIte, ih, decide_False, Bool.false_eq_true, not_false_eq_true,
        List.filter_cons_of_neg]

/-- The state after the vector selector case, on a rollup stage `r` and an
empty filter, written with the functions of the specification. -/
theorem selectorBody_eq (ms : List Matcher) (pre op : String) (m : Option String)
    (hm : (ms.filter (fun l => l.Name = MetricName)).map (fun l => l.Value) = m.toList) :
    selectorBody ms { MetricName := pre, GroupBy := [], Aggregations := [op] } "" =
      ({ MetricName := specMetricName pre m ms,
         GroupBy := (otherMatchers ms).map (fun l => l.Name),
         Aggregations := [op] }, specFilter m ms) := by
  unfold selectorBody
  simp only [metricNameLoop_eq, labelLoop_eq]
  cases hfl : ms.filter (fun l => l.Name = MetricName) with
  | nil =>
    rw [hfl] at hm
    cases m with
    | some v => simp at hm
    | none =>
      simp only [List.head?_nil, List.nil_append, specMetricName, String.append_empty,
        String.empty_append, specFilter, Option.toList, List.map_nil]
      congr 1
      have := Trim_join_trailing ((otherMatchers ms).map (fun l => l.Name ++ ":" ++ l.Value))
      simpa [List.map_map, Function.comp_def] using this
  | cons l ls =>
    rw [hfl] at hm
    cases m with
    | none => simp at hm
    | some v =>
      simp only [List.map_cons, Option.toList, List.cons.injEq] at hm
      obtain ⟨hv, -⟩ := hm
      simp only [List.head?_cons, List.nil_append, specMetricName, String.empty_append, specFilter,
        Option.toList, List.map_cons, List.map_nil, List.singleton_append, hv]
      congr 1
      have := Trim_join_trailing
        (("__name__:" ++ v) :: (otherMatchers ms).map (fun l => l.Name ++ ":" ++ l.Value))
      rw [← this]
      congr 1
      apply String.ext
      simp [String.data_join, List.map_map, Function.comp_def, List.append_assoc]


theorem contains_of_mem (op : String) (h : ToLower op ∈ ValidAggTypes) :
    ValidAggTypes.contains (ToLower op) = true := by
  simpa using h


/-! ## C1 and C2: the rules of `op(rate(selector[range]))` and `op(selector)` -/

/-- C1, as amended.  For every whitelisted operator `op`, every function name
`f` equal to "rate" ignoring case and every vector selector that holds at most
one matcher on the metric name (`m` is its value, `none` when there is none),
`queryToRollupRule` on `Aggregate(op, Call(f, MatrixSelector(selector)))`
succeeds: the name is the query text, the transforms are Increase, Rollup, Add,
the rollup has the metric name `lowercase(op):f`, then `:metricName` when the
selector names a metric, then `:name:value` per other matcher, the group-by list
of the other matcher names, the aggregations `[op]`, and the filter holds the
token `__name__:metricName` when the selector names a metric, then `name:value`
per other matcher, joined by single spaces and trimmed. -/
theorem queryToRollupRule_rate (ParseExpr : String → Except String Node)
    (query op f name : String) (offset range : Int) (ms : List Matcher)
    (grouping : List String) (without : Bool) (m : Option String)
    (hop : ToLower op ∈ ValidAggTypes) (hf : EqualFold f "rate" = true)
    (hm : (ms.filter (fun l => l.Name = MetricName)).map (fun l => l.Value) = m.toList)
    (hparse : ParseExpr query = .ok (.AggregateExpr op
      (.Call f [.MatrixSelector (.VectorSelector name offset ms) range]) none grouping without)) :
    queryToRollupRule ParseExpr query = .ok (some (specRateRule op f m ms query)) := by
  have hc := contains_of_mem op hop
  simp [queryToRollupRule, hparse, Inspect, Walk, WalkOpt, WalkList, visit, hc, hop, hf, bind,
    Except.bind, pure, Except.pure, selectorLoop, selectorBody_eq ms _ op m hm, specRateRule,
    specRollup, String.append_assoc]

/-- Witness of C1: the second case of `TestRollupRules`,
`sum(rate(query_duration_seconds{tag1="foo",tag2="bar"}[1m]))`. -/
theorem queryToRollupRule_rate_witness :
    queryToRollupRule (fun _ => .ok taggedRateTree) taggedRateQuery =
      .ok (some
        { Name := taggedRateQuery,
          Filter := "__name__:query_duration_seconds tag1:foo tag2:bar",
          Transforms :=
            [⟨none, some ⟨"Increase"⟩⟩,
             ⟨some { MetricName := "sum:rate:query_duration_seconds:tag1:foo:tag2:bar",
                     GroupBy := ["tag1", "tag2"], Aggregations := ["sum"] }, none⟩,
             ⟨none, some ⟨"Add"⟩⟩] }) :=
  (queryToRollupRule_rate (fun _ => .ok taggedRateTree) taggedRateQuery
    "sum" "rate" "query_duration_seconds" 0 60000000000 taggedMatchers [] false
    (some "query_duration_seconds") (by decide) (by decide) (by decide) rfl).trans (by rfl)

/-- Counterexample to C1 as stated: the selector of `sum(rate({job="x"}[1m]))`
holds no matcher on the metric name, which "at most one" allows.  The rule that
is returned has the metric name "sum:rate:job:x" and the filter "job:x", and no
metric name whatsoever makes it the rule the claim describes. -/
theorem queryToRollupRule_rate_no_metric_name :
    ToLower "sum" ∈ ValidAggTypes ∧ EqualFold "rate" "rate" = true ∧
    (jobMatchers.filter (fun l => l.Name = MetricName)).length ≤ 1 ∧
    queryToRollupRule (fun _ => .ok jobRateTree) jobRateQuery =
      .ok (some
        { Name := jobRateQuery,
          Filter := "job:x",
          Transforms :=
            [⟨none, some ⟨"Increase"⟩⟩,
             ⟨some { MetricName := "sum:rate:job:x", GroupBy := ["job"],
                     Aggregations := ["sum"] }, none⟩,
             ⟨none, some ⟨"Add"⟩⟩] }) ∧
    ¬ ∃ metricName : String,
      queryToRollupRule (fun _ => .ok jobRateTree) jobRateQuery =
        .ok (some (specRateRule "sum" "rate" (some metricName) jobMatchers
          jobRateQuery)) := by
  have h : queryToRollupRule (fun _ => .ok jobRateTree) jobRateQuery =
      .ok (some
        { Name := jobRateQuery,
          Filter := "job:x",
          Transforms :=
            [⟨none, some ⟨"Increase"⟩⟩,
             ⟨some { MetricName := "sum:rate:job:x", GroupBy := ["job"],
                     Aggregations := ["sum"] }, none⟩,
             ⟨none, some ⟨"Add"⟩⟩] }) := by rfl
  refine ⟨by decide, by decide, by decide, h, ?_⟩
  rintro ⟨x, hx⟩
  rw [h] at hx
  simp only [Except.ok.injEq, Option.some.injEq, specRateRule, specRollup,
    RollupRuleConfiguration.mk.injEq, List.cons.injEq, TransformConfiguration.mk.injEq,
    RollupOperationConfiguration.mk.injEq] at hx
  have hlen := congrArg String.length hx.2.1.2.1.1.1
  simp [specMetricName, otherMatchers, jobMatchers, MetricName, String.join, ToLower] at hlen
  have e1 : "sum:rate:job:x".length = 14 := by decide
  have e2 : "sum:rate".length = 8 := by decide
  have e3 : ":".length = 1 := by decide
  have e4 : ":job:x".length = 6 := by decide
  omega

/-- C2, as amended.  For every whitelisted operator `op` and every vector
selector that holds at most one matcher on the metric name (`m` is its value,
`none` when there is none), `queryToRollupRule` on `Aggregate(op, selector)`
succeeds: the name is the query text, the transforms are a single rollup stage,
the rollup has the metric name `lowercase(op)`, then `:metricName` when the
selector names a metric, then `:name:value` per other matcher, the group-by list
of the other matcher names, the aggregations `[op]`, and the filter holds the
token `__name__:metricName` when the selector names a metric, then `name:value`
per other matcher, joined by single spaces and trimmed. -/
theorem queryToRollupRule_aggregate (ParseExpr : String → Except String Node)
    (query op name : String) (offset : Int) (ms : List Matcher)
    (grouping : List String) (without : Bool) (m : Option String)
    (hop : ToLower op ∈ ValidAggTypes)
    (hm : (ms.filter (fun l => l.Name = MetricName)).map (fun l => l.Value) = m.toList)
    (hparse : ParseExpr query = .ok (.AggregateExpr op
      (.VectorSelector name offset ms) none grouping without)) :
    queryToRollupRule ParseExpr query = .ok (some (specAggRule op m ms query)) := by
  have hc := contains_of_mem op hop
  simp [queryToRollupRule, hparse, Inspect, Walk, WalkOpt, WalkList, visit, hc, hop, bind,
    Except.bind, pure, Except.pure, selectorLoop, selectorBody_eq ms _ op m hm, specAggRule,
    specRollup]

/-- Witness of C2: the third case of `TestRollupRules`, `sum(query_count)`. -/
theorem queryToRollupRule_aggregate_witness :
    queryToRollupRule (fun _ => .ok sumTree) "sum(query_count)" =
      .ok (some
        { Name := "sum(query_count)",
          Filter := "__name__:query_count",
          Transforms :=
            [⟨some { MetricName := "sum:query_count", GroupBy := [],
                     Aggregations := ["sum"] }, none⟩] }) :=
  (queryToRollupRule_aggregate (fun _ => .ok sumTree) "sum(query_count)" "sum" "query_count" 0
    countMatchers [] false (some "query_count") (by decide) (by decide) rfl).trans (by rfl)

/-- Counterexample to C2 as stated: the selector of `sum({job="x"})` holds no
matcher on the metric name.  The rule that is returned has the metric name
"sum:job:x" and the filter "job:x", and no metric name whatsoever makes it the
rule the claim describes. -/
theorem queryToRollupRule_aggregate_no_metric_name :
    ToLower "sum" ∈ ValidAggTypes ∧
    (jobMatchers.filter (fun l => l.Name = MetricName)).length ≤ 1 ∧
    queryToRollupRule (fun _ => .ok jobSumTree) jobSumQuery =
      .ok (some
        { Name := jobSumQuery,
          Filter := "job:x",
          Transforms :=
            [⟨some { MetricName := "sum:job:x", GroupBy := ["job"],
                     Aggregations := ["sum"] }, none⟩] }) ∧
    ¬ ∃ metricName : String,
      queryToRollupRule (fun _ => .ok jobSumTree) jobSumQuery =
        .ok (some (specAggRule "sum" (some metricName) jobMatchers jobSumQuery)) := by
  have h : queryToRollupRule (fun _ => .ok jobSumTree) jobSumQuery =
      .ok (some
        { Name := jobSumQuery,
          Filter := "job:x",
          Transforms :=
            [⟨some { MetricName := "sum:job:x", GroupBy := ["job"],
                     Aggregations := ["sum"] }, none⟩] }) := by rfl
  refine ⟨by decide, by decide, h, ?_⟩
  rintro ⟨x, hx⟩
  rw [h] at hx
  simp only [Except.ok.injEq, Option.some.injEq, specAggRule, specRollup,
    RollupRuleConfiguration.mk.injEq, List.cons.injEq, TransformConfiguration.mk.injEq,
    RollupOperationConfiguration.mk.injEq] at hx
  have hlen := congrArg String.length hx.2.1.1.1.1
  simp [specMetricName, otherMatchers, jobMatchers, MetricName, String.join, ToLower] at hlen
  have e1 : "sum:job:x".length = 9 := by decide
  have e2 : "sum".length = 3 := by decide
  have e3 : ":".length = 1 := by decide
  have e4 : ":job:x".length = 6 := by decide
  omega

/-! ## C3, C4 and C5: the trees that are rejected -/

/-- C3.  For every expression tree that contains two or more aggregate
expression nodes, nested or in independent subtrees, `queryToRollupRule` returns
the nil rule, whatever the operators and the rest of the tree. -/
theorem queryToRollupRule_two_aggregates (ParseExpr : String → Except String Node)
    (query : String) (expr : Node) (hparse : ParseExpr query = .ok expr)
    (h : 2 ≤ (nodes expr).countP isAggregateExpr) :
    queryToRollupRule ParseExpr query = .ok none := by
  obtain ⟨st, hrun, -, -, -, -, -, hv, -, -⟩ :=
    visitAll_spec (nodes expr) (initialState query) (Or.inl rfl)
  exact queryToRollupRule_of_invalid ParseExpr query expr hparse st hrun (hv h)

/-- Witness of C3: the fourth case of `TestRollupRules`, `sum(max(query_count))`. -/
theorem queryToRollupRule_two_aggregates_witness :
    2 ≤ (nodes nestedTree).countP isAggregateExpr ∧
    queryToRollupRule (fun _ => .ok nestedTree) "sum(max(query_count))" = .ok none :=
  ⟨by decide,
   queryToRollupRule_two_aggregates (fun _ => .ok nestedTree) "sum(max(query_count))"
     nestedTree rfl (by decide)⟩

/-- C4.  For every expression tree that contains, anywhere, a node of a kind
other than aggregate, call, matrix selector and vector selector, or a call whose
function name is not "rate" ignoring case, or an aggregate whose operator is not
in the whitelist ignoring case, `queryToRollupRule` returns the nil rule. -/
theorem queryToRollupRule_unsupported (ParseExpr : String → Except String Node)
    (query : String) (expr : Node) (hparse : ParseExpr query = .ok expr)
    (h : ∃ n ∈ nodes expr, unsupported n = true) :
    queryToRollupRule ParseExpr query = .ok none := by
  obtain ⟨st, hrun, -, -, -, -, -, -, hv, -⟩ :=
    visitAll_spec (nodes expr) (initialState query) (Or.inl rfl)
  exact queryToRollupRule_of_invalid ParseExpr query expr hparse st hrun (hv h)

/-- Witness of C4: `sum(query_count) / 2` holds a binary expression. -/
theorem queryToRollupRule_unsupported_witness :
    (∃ n ∈ nodes binaryTree, unsupported n = true) ∧
    queryToRollupRule (fun _ => .ok binaryTree) "sum(query_count) / 2" = .ok none :=
  ⟨⟨binaryTree, by simp [binaryTree, nodes], rfl⟩,
   queryToRollupRule_unsupported (fun _ => .ok binaryTree) "sum(query_count) / 2" binaryTree rfl
     ⟨binaryTree, by simp [binaryTree, nodes], rfl⟩⟩

/-- C5.  For every expression tree in which a call node is visited, in
pre-order, before any aggregate node (so while `Transforms` is still empty),
`queryToRollupRule` returns the nil rule, also when the call is "rate"; with an
empty `pre` this is every tree whose root is a call. -/
theorem queryToRollupRule_call_first (ParseExpr : String → Except String Node)
    (query : String) (expr : Node) (pre post : List Node) (c : Node)
    (hparse : ParseExpr query = .ok expr)
    (hnodes : nodes expr = pre ++ c :: post) (hc : isCall c = true)
    (hpre : ∀ n ∈ pre, isAggregateExpr n = false) :
    queryToRollupRule ParseExpr query = .ok none := by
  obtain ⟨s1, h1, hw1, -, -, -, -, -, -, hnil⟩ :=
    visitAll_spec pre (initialState query) (Or.inl rfl)
  obtain ⟨s2, h2, -, -, -, -, -, -, hcall, -⟩ := visit_spec s1 c hw1
  have hv : s2.valid = false := hcall hc (hnil hpre rfl)
  refine queryToRollupRule_of_invalid ParseExpr query expr hparse s2 ?_ hv
  rw [hnodes, visitAll_append, h1]
  show visitAll s1 (c :: post) = _
  rw [visitAll_cons s1 s2 c post h2]
  exact visitAll_invalid s2 post hv

/-- Witness of C5: `rate(query_count[1m])`, whose root is a call. -/
theorem queryToRollupRule_call_first_witness :
    queryToRollupRule (fun _ => .ok bareRateTree) "rate(query_count[1m])" = .ok none :=
  queryToRollupRule_call_first (fun _ => .ok bareRateTree) "rate(query_count[1m])" bareRateTree
    [] [.MatrixSelector (.VectorSelector "query_count" 0 countMatchers) 60000000000,
        .VectorSelector "query_count" 0 countMatchers]
    bareRateTree rfl rfl rfl (by simp)

/-! ## Lemmas on rule names -/

theorem data_reReplace_colon (s : String) :
    (reReplaceAllLiteralString s ":").data =
      s.data.map (fun c => if isWordChar c then c else ':') := by
  unfold reReplaceAllLiteralString
  show (List.map (fun c => if isWordChar c = true then [c] else [':']) s.data).flatten = _
  induction s.data with
  | nil => rfl
  | cons c cs ih =>
    simp only [List.map_cons, List.flatten_cons, ih]
    split <;> rfl

theorem collapse_cons_ne (c : Char) (cs : List Char) (h : c ≠ ':') :
    collapse (c :: cs) = c :: collapse cs := by
  have : (':' == c) = false := by simpa using fun h' => h h'.symm
  simp [collapse, replaceAllAux, List.isPrefixOf, this]

theorem collapse_colon_colon (cs : List Char) :
    collapse (':' :: ':' :: cs) = ':' :: collapse cs := by
  simp [collapse, replaceAllAux, List.isPrefixOf]

theorem collapse_colon_ne (d : Char) (cs : List Char) (h : d ≠ ':') :
    collapse (':' :: d :: cs) = ':' :: collapse (d :: cs) := by
  have : (':' == d) = false := by simpa using fun h' => h h'.symm
  simp [collapse, replaceAllAux, List.isPrefixOf, this]

theorem mem_replaceAllAux (l : List Char) :
    ∀ (skip : Nat) (x : Char), x ∈ replaceAllAux [':', ':'] [':'] skip l → x ∈ l := by
  induction l with
  | nil => intro skip x h; cases skip <;> simp [replaceAllAux] at h
  | cons c cs ih =>
    intro skip x h
    cases skip with
    | succ k =>
      simp only [replaceAllAux] at h
      exact List.mem_cons_of_mem _ (ih k x h)
    | zero =>
      simp only [replaceAllAux] at h
      split at h
      · rename_i hp
        have hc : c = ':' := by
          simp [List.isPrefixOf] at hp
          exact hp.1.symm
        rcases List.mem_append.1 h with h | h
        · simp at h; subst h; subst hc; exact List.mem_cons_self _ _
        · exact List.mem_cons_of_mem _ (ih _ x h)
      · rcases List.mem_cons.1 h with h | h
        · subst h; exact List.mem_cons_self _ _
        · exact List.mem_cons_of_mem _ (ih _ x h)

theorem stripPrefixLoop_eq (l : List Char) :
    stripPrefixLoop l = l.dropWhile (fun c => c == ':') := by
  induction l with
  | nil => rfl
  | cons c cs ih =>
    by_cases h : c = ':'
    · subst h
      simp [stripPrefixLoop, HasPrefix, List.isPrefixOf, ih]
    · have h1 : (':' == c) = false := by simpa using fun h' => h h'.symm
      have h2 : (c == ':') = false := by simpa using h
      simp [stripPrefixLoop, HasPrefix, List.isPrefixOf, h1, List.dropWhile, h2]

theorem eq_nil_or_snoc {α : Type} (l : List α) : l = [] ∨ ∃ t a, l = t ++ [a] := by
  rcases List.eq_nil_or_concat l with h | ⟨t, a, h⟩
  · exact Or.inl h
  · exact Or.inr ⟨t, a, by rw [h, List.concat_eq_append]⟩

theorem hasSuffix_colon (l : List Char) :
    HasSuffix ⟨l⟩ ":" = true ↔ l.getLast? = some ':' := by
  show List.isSuffixOf [':'] l = true ↔ _
  rw [List.isSuffixOf_iff_suffix]
  constructor
  · rintro ⟨t, rfl⟩
    simp
  · intro h
    obtain ⟨t, rfl⟩ : ∃ t, l = t ++ [':'] := by
      rcases eq_nil_or_snoc l with rfl | ⟨t, a, rfl⟩
      · simp at h
      · simp at h; subst h; exact ⟨t, rfl⟩
    exact ⟨t, rfl⟩

theorem stripSuffixLoop_eq (fuel : Nat) :
    ∀ l : List Char, l.length ≤ fuel →
      stripSuffixLoop fuel l = l.rdropWhile (fun c => c == ':') := by
  induction fuel with
  | zero =>
    intro l h
    have : l = [] := List.length_eq_zero.1 (Nat.le_zero.1 h)
    subst this; rfl
  | succ n ih =>
    intro l h
    rcases eq_nil_or_snoc l with rfl | ⟨t, a, rfl⟩
    · simp [stripSuffixLoop, HasSuffix, List.rdropWhile_nil]
    · unfold stripSuffixLoop
      by_cases ha : a = ':'
      · subst ha
        have h1 : HasSuffix ⟨t ++ [':']⟩ ":" = true := (hasSuffix_colon _).2 (by simp)
        rw [if_pos h1, List.dropLast_concat, List.rdropWhile_concat_pos _ _ _ (by simp)]
        exact ih t (by simpa using h)
      · have h1 : ¬ HasSuffix ⟨t ++ [a]⟩ ":" = true := by
          rw [hasSuffix_colon]; simpa using ha
        rw [if_neg h1, List.rdropWhile_concat_neg _ _ _ (by simpa using ha)]


theorem toRuleName_data (s : String) :
    (toRuleName s).data =
      List.rdropWhile (fun c => c == ':')
        (List.dropWhile (fun c => c == ':')
          (collapse (s.data.map (fun c => if isWordChar c then c else ':')))) := by
  unfold toRuleName
  simp only [ReplaceAll, data_reReplace_colon, stripPrefixLoop_eq]
  exact stripSuffixLoop_eq _ _ (le_refl _)

theorem isWordChar_ne_colon (c : Char) (h : isWordChar c = true) : c ≠ ':' := by
  rintro rfl
  exact absurd h (by decide)

theorem collapse_of_word (l : List Char) (h : ∀ c ∈ l, isWordChar c = true) :
    collapse l = l := by
  induction l with
  | nil => rfl
  | cons c cs ih =>
    rw [collapse_cons_ne c cs (isWordChar_ne_colon c (h c (List.mem_cons_self _ _))),
      ih (fun x hx => h x (List.mem_cons_of_mem _ hx))]

theorem collapse_word_append (l rest : List Char) (h : ∀ c ∈ l, isWordChar c = true) :
    collapse (l ++ rest) = l ++ collapse rest := by
  induction l with
  | nil => rfl
  | cons c cs ih =>
    rw [List.cons_append,
      collapse_cons_ne c _ (isWordChar_ne_colon c (h c (List.mem_cons_self _ _))),
      ih (fun x hx => h x (List.mem_cons_of_mem _ hx)), List.cons_append]

/-- A run of `k` colons before a word character collapses to `(k + 1) / 2`
colons: the pairs are replaced one by one, left to right, and an odd colon that
is left over stays. -/
theorem collapse_run (d : Char) (ds : List Char) (hd : d ≠ ':') :
    ∀ k : Nat, collapse (List.replicate k ':' ++ d :: ds) =
      List.replicate ((k + 1) / 2) ':' ++ collapse (d :: ds)
  | 0 => rfl
  | 1 => by
    show collapse (':' :: d :: ds) = _
    rw [collapse_colon_ne d ds hd]
    rfl
  | k + 2 => by
    have e : (k + 2 + 1) / 2 = (k + 1) / 2 + 1 := by omega
    rw [e, List.replicate_succ, List.replicate_succ, List.replicate_succ, List.cons_append,
      List.cons_append, collapse_colon_colon, collapse_run d ds hd k, List.cons_append]

theorem map_word (l : List Char) (h : ∀ c ∈ l, isWordChar c = true) :
    l.map (fun c => if isWordChar c then c else ':') = l := by
  induction l with
  | nil => rfl
  | cons c cs ih =>
    simp only [List.map_cons, h c (List.mem_cons_self _ _), if_true,
      ih (fun x hx => h x (List.mem_cons_of_mem _ hx))]

theorem map_nonword (l : List Char) (h : ∀ c ∈ l, isWordChar c = false) :
    l.map (fun c => if isWordChar c then c else ':') = List.replicate l.length ':' := by
  induction l with
  | nil => rfl
  | cons c cs ih =>
    simp [List.map_cons, h c (List.mem_cons_self _ _),
      ih (fun x hx => h x (List.mem_cons_of_mem _ hx)), List.replicate_succ]


/-! ## C6 and C7: the rule names -/

/-- C6.  For every input string, the result of `toRuleName` holds only
characters of `[A-Za-z0-9_:]`, does not begin with ':' and does not end with
':'; the empty result satisfies this. -/
theorem toRuleName_charset (s : String) :
    (∀ c ∈ (toRuleName s).data, isWordChar c = true ∨ c = ':') ∧
    (toRuleName s).data.head? ≠ some ':' ∧
    (toRuleName s).data.getLast? ≠ some ':' := by
  rw [toRuleName_data]
  refine ⟨?_, ?_, ?_⟩
  · intro c hc
    have h1 := ( List.rdropWhile_prefix (fun c => c == ':') _).subset hc
    have h2 := (List.dropWhile_suffix (fun c => c == ':')).subset h1
    have h3 := mem_replaceAllAux _ 0 c h2
    obtain ⟨a, -, ha⟩ := List.mem_map.1 h3
    by_cases hw : isWordChar a = true
    · rw [if_pos hw] at ha; subst ha; exact Or.inl hw
    · rw [if_neg hw] at ha; exact Or.inr ha.symm
  · generalize collapse _ = L
    have hd := List.head?_dropWhile_not (fun c => c == ':') L
    obtain ⟨t, ht⟩ := List.rdropWhile_prefix (fun c => c == ':')
      (List.dropWhile (fun c => c == ':') L)
    intro hh
    cases hr : List.rdropWhile (fun c => c == ':') (List.dropWhile (fun c => c == ':') L) with
    | nil => rw [hr] at hh; simp at hh
    | cons a as =>
      rw [hr] at hh ht
      simp only [List.head?_cons, Option.some.injEq] at hh
      rw [← ht] at hd
      simp [hh] at hd
  · intro hh
    generalize List.dropWhile (fun c => c == ':') (collapse _) = L at hh
    have hne : List.rdropWhile (fun c => c == ':') L ≠ [] := by
      intro h0; rw [h0] at hh; simp at hh
    have := List.rdropWhile_last_not (fun c => c == ':') L hne
    rw [List.getLast?_eq_getLast _ hne] at hh
    simp only [Option.some.injEq] at hh
    rw [hh] at this
    simp at this

/-- C7.  The collapse of "::" in `toRuleName` is one left-to-right
non-overlapping pass: for all non-empty strings `u` and `v` of word characters
and every string `w` of `k` characters outside the word characters,
`toRuleName (u ++ w ++ v)` is `u`, then `ceil(k/2)` colons, then `v`. -/
theorem toRuleName_single_pass (u v w : String)
    (hu : u ≠ "") (hv : v ≠ "")
    (huw : ∀ c ∈ u.data, isWordChar c = true) (hvw : ∀ c ∈ v.data, isWordChar c = true)
    (hw : ∀ c ∈ w.data, isWordChar c = false) :
    toRuleName (u ++ w ++ v) = u ++ ⟨List.replicate ((w.length + 1) / 2) ':'⟩ ++ v := by
  have hu' : u.data ≠ [] := fun h => hu (String.ext h)
  have hv' : v.data ≠ [] := fun h => hv (String.ext h)
  apply String.ext
  rw [toRuleName_data]
  simp only [String.data_append, List.map_append, map_word _ huw, map_word _ hvw,
    map_nonword _ hw, List.append_assoc]
  obtain ⟨a, as, hua⟩ := List.exists_cons_of_ne_nil hu'
  obtain ⟨d, ds, hvd⟩ := List.exists_cons_of_ne_nil hv'
  have hd : d ≠ ':' := isWordChar_ne_colon d (hvw d (by rw [hvd]; exact List.mem_cons_self _ _))
  have ha : a ≠ ':' := isWordChar_ne_colon a (huw a (by rw [hua]; exact List.mem_cons_self _ _))
  rw [collapse_word_append _ _ huw, hvd, collapse_run d ds hd, ← hvd, collapse_of_word _ hvw]
  show List.rdropWhile _ (List.dropWhile _ (u.data ++ _)) = _
  have h1 : List.dropWhile (fun c => c == ':')
      (u.data ++ (List.replicate ((w.data.length + 1) / 2) ':' ++ v.data)) =
      u.data ++ (List.replicate ((w.data.length + 1) / 2) ':' ++ v.data) := by
    rw [hua, List.cons_append, List.dropWhile_cons_of_neg (by simpa using ha)]
  rw [h1]
  rcases eq_nil_or_snoc v.data with h0 | ⟨t, b, hb⟩
  · exact absurd h0 hv'
  · have hbw : b ≠ ':' := isWordChar_ne_colon b (hvw b (by rw [hb]; simp))
    rw [hb, ← List.append_assoc, ← List.append_assoc,
      List.rdropWhile_concat_neg _ _ _ (by simpa using hbw)]
    simp only [List.append_assoc]
    rfl

/-- Witness of C7: three characters outside the word characters leave two
colons, "a+++b" gives "a::b". -/
theorem toRuleName_single_pass_witness : toRuleName "a+++b" = "a::b" :=
  toRuleName_single_pass "a" "b" "+++" (by decide) (by decide) (by decide) (by decide)
    (by decide)

/-! ## Lemmas on the statistics -/

theorem mapGet_mapSet {F : Type} (qs k : String) (v : queryStats F) (m : StatsMap F) :
    mapGet (mapSet qs v m) k = if qs = k then some v else mapGet m k := by
  induction m with
  | nil => simp [mapSet, mapGet]
  | cons kv rest ih =>
    unfold mapSet
    by_cases h1 : kv.1 = qs
    · rw [if_pos h1]
      by_cases h2 : qs = k
      · simp [h2, mapGet]
      · have h3 : ¬ kv.1 = k := by rw [h1]; exact h2
        simp [h2, h3, mapGet]
    · rw [if_neg h1]
      by_cases h3 : kv.1 = k
      · have h2 : ¬ qs = k := by rw [← h3]; exact fun h => h1 h.symm
        simp [h2, h3, mapGet]
      · simp [h3, mapGet, ih]

theorem mem_mapSet {F : Type} (qs : String) (v : queryStats F) (m : StatsMap F) (kv : String × queryStats F)
    (h : kv ∈ mapSet qs v m) : kv = (qs, v) ∨ kv ∈ m := by
  induction m with
  | nil => simpa [mapSet] using h
  | cons a rest ih =>
    unfold mapSet at h
    split at h
    · rcases List.mem_cons.1 h with h | h
      · exact Or.inl h
      · exact Or.inr (List.mem_cons_of_mem _ h)
    · rcases List.mem_cons.1 h with h | h
      · exact Or.inr (h ▸ List.mem_cons_self _ _)
      · rcases ih h with h | h
        · exact Or.inl h
        · exact Or.inr (List.mem_cons_of_mem _ h)

theorem mem_of_mapGet {F : Type} (m : StatsMap F) (k : String) (q : queryStats F)
    (h : mapGet m k = some q) : ∃ kv ∈ m, kv.2 = q := by
  induction m with
  | nil => simp [mapGet] at h
  | cons a rest ih =>
    unfold mapGet at h
    split at h
    · exact ⟨a, List.mem_cons_self _ _, Option.some.inj h⟩
    · obtain ⟨kv, hkv, e⟩ := ih h
      exact ⟨kv, List.mem_cons_of_mem _ hkv, e⟩

theorem statsAfter_add {F : Type} [Add F] (old : Option (queryStats F)) (k : String) (t : F) (a b : Nat) :
    statsAfter (statsAfter old k t a) k t b = statsAfter old k t (a + b) := by
  cases old with
  | some q =>
    simp only [statsAfter, Option.some.injEq, queryStats.mk.injEq, true_and]
    refine ⟨?_, by omega⟩
    rw [Nat.add_comm a b, Function.iterate_add_apply]
  | none =>
    cases a with
    | zero => simp [statsAfter]
    | succ a =>
      have e : a + 1 + b = (b + a) + 1 := by omega
      rw [e]
      simp only [statsAfter, Function.iterate_add_apply, Option.some.injEq, queryStats.mk.injEq,
        true_and]
      omega

theorem statsAfter_zero {F : Type} [Add F] (old : Option (queryStats F)) (k : String) (t : F)
    (h : ∀ q, old = some q → q.count < 2 ^ 32) : statsAfter old k t 0 = old := by
  cases old with
  | none => rfl
  | some q =>
    have := h q rfl
    simp only [statsAfter, Function.iterate_zero, id_eq, Nat.add_zero, Nat.mod_eq_of_lt this]

/-- One call of the callback of the statistics: it does not fail, it keeps the
counts in the range of `uint32`, and the entry of every key `k` is the one after
one sighting when the node is an aggregate rendered as `k`, unchanged otherwise. -/
theorem observe_spec {F : Type} [Add F] (render : Node → String) (timings : QueryStatsTimings F)
    (m : StatsMap F) (n : Node) (hm : ∀ kv ∈ m, kv.2.count < 2 ^ 32) :
    ∃ m', observe render timings m (some n) = .ok m' ∧
      (∀ kv ∈ m', kv.2.count < 2 ^ 32) ∧
      (∀ k, mapGet m' k = statsAfter (mapGet m k) k timings.InnerEvalTime
        (if (isAggregateExpr n && render n == k) = true then 1 else 0)) ∧
      (isAggregateExpr n = false → m' = m) := by
  have hz : ∀ k, mapGet m k = statsAfter (mapGet m k) k timings.InnerEvalTime 0 := fun k =>
    (statsAfter_zero _ k _ (fun q hq => by
      obtain ⟨kv, hkv, e⟩ := mem_of_mapGet m k q hq
      exact e ▸ hm kv hkv)).symm
  cases n
  case AggregateExpr op e p g w =>
    simp only [observe, isAggregateExpr, Bool.true_and, beq_iff_eq]
    cases hg : mapGet m (render (.AggregateExpr op e p g w)) with
    | some q =>
      refine ⟨_, rfl, ?_, ?_, by simp⟩
      · intro kv hkv
        rcases mem_mapSet _ _ _ _ hkv with h | h
        · subst h; exact Nat.mod_lt _ (by norm_num)
        · exact hm kv h
      · intro k
        rw [mapGet_mapSet]
        split
        · rename_i hk; rw [← hk, hg]; rfl
        · exact hz k
    | none =>
      refine ⟨_, rfl, ?_, ?_, by simp⟩
      · intro kv hkv
        rcases mem_mapSet _ _ _ _ hkv with h | h
        · subst h; norm_num
        · exact hm kv h
      · intro k
        rw [mapGet_mapSet]
        split
        · rename_i hk; rw [← hk, hg]; rfl
        · exact hz k
  all_goals exact ⟨m, rfl, hm, by simpa [isAggregateExpr] using hz, fun _ => rfl⟩

/-- The callbacks of the statistics over a list of nodes. -/
theorem observe_list {F : Type} [Add F] (render : Node → String) (timings : QueryStatsTimings F)
    (l : List Node) : ∀ m : StatsMap F, (∀ kv ∈ m, kv.2.count < 2 ^ 32) →
    ∃ m', l.foldlM (fun s n => observe render timings s (some n)) m = .ok m' ∧
      (∀ kv ∈ m', kv.2.count < 2 ^ 32) ∧
      (∀ k, mapGet m' k = statsAfter (mapGet m k) k timings.InnerEvalTime
        (l.countP (fun n => isAggregateExpr n && render n == k))) ∧
      (l.countP isAggregateExpr = 0 → m' = m) := by
  induction l with
  | nil =>
    intro m hm
    refine ⟨m, rfl, hm, fun k => ?_, fun _ => rfl⟩
    exact (statsAfter_zero _ k _ (fun q hq => by
      obtain ⟨kv, hkv, e⟩ := mem_of_mapGet m k q hq
      exact e ▸ hm kv hkv)).symm
  | cons n ns ih =>
    intro m hm
    obtain ⟨m1, h1, hm1, hget1, hsame1⟩ := observe_spec render timings m n hm
    obtain ⟨m2, h2, hm2, hget2, hsame2⟩ := ih m1 hm1
    refine ⟨m2, ?_, hm2, fun k => ?_, fun h0 => ?_⟩
    · rw [List.foldlM_cons, h1]; exact h2
    · rw [hget2 k, hget1 k, statsAfter_add, List.countP_cons, Nat.add_comm]
    · have hn : isAggregateExpr n = false := by
        by_contra hc
        rw [List.countP_cons_of_pos _ _ (by simpa using hc)] at h0
        omega
      rw [List.countP_cons_of_neg _ _ (by simp [hn])] at h0
      rw [hsame2 h0, hsame1 hn]


/-! ## C8: the statistics of one query -/

/-- C8.  For every statistics map `m` (with counts in the range of `uint32`),
every record and every expression tree, the visit of the tree does not fail and
leaves, for every key `k`, the entry of `k` after `n_k` sightings, where `n_k` is
the number of aggregate nodes of the tree rendered as `k`: the count is the
count before (0 when absent) plus `n_k` modulo `2^32`, and the time is the time
before with the inner evaluation time of the record added `n_k` times (stored,
then added `n_k - 1` times, when the key was absent).  A tree without aggregate
node leaves the map unchanged. -/
theorem observe_counts {F : Type} [Add F] (render : Node → String)
    (timings : QueryStatsTimings F) (m : StatsMap F) (t : Node)
    (hm : ∀ kv ∈ m, kv.2.count < 2 ^ 32) :
    ∃ m', Inspect t m (observe render timings) = .ok m' ∧
      (∀ k, mapGet m' k =
        statsAfter (mapGet m k) k timings.InnerEvalTime (aggregateCount render k t)) ∧
      ((nodes t).countP isAggregateExpr = 0 → m' = m) := by
  obtain ⟨m', h, -, hget, hsame⟩ := observe_list render timings (nodes t) m hm
  refine ⟨m', ?_, hget, hsame⟩
  unfold Inspect
  rw [Walk_eq_foldlM (observe render timings) (fun _ => rfl)]
  exact h

/-- Witness of C8: `sum(max(query_count))` seen in a query of 3 seconds, in a
map that holds "sum" with the time 5 and the count 2: "sum" gets the time 8 and
the count 3, "max" is inserted with the time 3 and the count 1. -/
theorem observe_counts_witness :
    (∀ kv ∈ oneEntryMap, kv.2.count < 2 ^ 32) ∧
    ∃ m', Inspect nestedTree oneEntryMap (observe opRender threeSeconds) = .ok m' ∧
      mapGet m' "sum" = some ⟨"sum", 8, 3⟩ ∧ mapGet m' "max" = some ⟨"max", 3, 1⟩ := by
  refine ⟨by decide, ?_⟩
  obtain ⟨m', h, hget, -⟩ :=
    observe_counts opRender threeSeconds oneEntryMap nestedTree (by decide)
  exact ⟨m', h, (hget "sum").trans (by decide), (hget "max").trans (by decide)⟩

theorem perm_sortSlice {α : Type} (less : α → α → Bool) (l : List α) :
    (sortSlice less l).Perm l :=
  List.perm_insertionSort _ l

theorem rank_perm {F : Type} [LinearOrder F] (m : StatsMap F) (minCount : Nat) :
    (rank m minCount).Perm
      ((m.map (fun kv => kv.2)).filter (fun v => decide (v.count ≥ minCount))) :=
  perm_sortSlice _ _

theorem mem_rank {F : Type} [LinearOrder F] (m : StatsMap F) (minCount : Nat) (v : queryStats F) :
    v ∈ rank m minCount ↔ (∃ kv ∈ m, kv.2 = v) ∧ minCount ≤ v.count := by
  rw [(rank_perm m minCount).mem_iff]
  simp [List.mem_filter]


/-! ## C9 and C10: the ranked list -/

/-- C9.  For every statistics map and every `minCount`, the ranked list holds
exactly the entries of the map whose count is at least `minCount`, each as often
as the map holds it, so once when the entries of the map are distinct: no entry
of the list has a smaller count, no entry of the map with such a count is left
out, and with `minCount = 0` every entry of the map is in the list. -/
theorem rank_filter {F : Type} [LinearOrder F] (m : StatsMap F) (minCount : Nat) :
    (∀ v ∈ rank m minCount, minCount ≤ v.count ∧ ∃ kv ∈ m, kv.2 = v) ∧
    (∀ kv ∈ m, minCount ≤ kv.2.count → kv.2 ∈ rank m minCount) ∧
    (∀ v, (rank m minCount).count v =
      ((m.map (fun kv => kv.2)).filter (fun v => decide (v.count ≥ minCount))).count v) ∧
    ((m.map (fun kv => kv.2)).Nodup → (rank m minCount).Nodup) ∧
    (∀ kv ∈ m, kv.2 ∈ rank m 0) := by
  refine ⟨fun v hv => ?_, fun kv hkv hc => ?_, fun v => ?_, fun hnd => ?_, fun kv hkv => ?_⟩
  · exact ⟨((mem_rank m minCount v).1 hv).2, ((mem_rank m minCount v).1 hv).1⟩
  · exact (mem_rank m minCount kv.2).2 ⟨⟨kv, hkv, rfl⟩, hc⟩
  · exact (rank_perm m minCount).count_eq v
  · exact (rank_perm m minCount).nodup_iff.2 (hnd.filter _)
  · exact (mem_rank m 0 kv.2).2 ⟨⟨kv, hkv, rfl⟩, Nat.zero_le _⟩

/-- Witness of C9: of three entries with the counts 2, 1 and 3, the ranked list
for `minCount = 2` holds the two with the counts 3 and 2. -/
theorem rank_filter_witness :
    rank threeEntryMap 2 = [⟨"c", 7, 3⟩, ⟨"a", 5, 2⟩] ∧
    (⟨"a", 5, 2⟩ : queryStats Nat) ∈ rank threeEntryMap 2 ∧
    ∀ v ∈ rank threeEntryMap 2, 2 ≤ v.count ∧ ∃ kv ∈ threeEntryMap, kv.2 = v :=
  ⟨by decide,
   (rank_filter threeEntryMap 2).2.1 ("a", ⟨"a", 5, 2⟩) (by decide) (by decide),
   (rank_filter threeEntryMap 2).1⟩

/-- C10.  For every statistics map and every `minCount`, the ranked list is
ordered by cumulative time, largest first: for all positions `i < j` the time of
the entry at `i` is at least that of the entry at `j`; and the list is a
permutation of the filtered entries of the map. -/
theorem rank_sorted {F : Type} [LinearOrder F] (m : StatsMap F) (minCount : Nat) :
    (∀ i j : Fin (rank m minCount).length, i < j →
      ((rank m minCount).get j).tookTime ≤ ((rank m minCount).get i).tookTime) ∧
    (rank m minCount).Perm
      ((m.map (fun kv => kv.2)).filter (fun v => decide (v.count ≥ minCount))) := by
  refine ⟨?_, rank_perm m minCount⟩
  have hs : List.Sorted (fun a b : queryStats F => decide (b.tookTime > a.tookTime) = false)
      (rank m minCount) := by
    haveI : IsTotal (queryStats F) (fun a b => decide (b.tookTime > a.tookTime) = false) :=
      ⟨fun a b => by
        rcases le_total a.tookTime b.tookTime with h | h
        · exact Or.inr (by simpa using h)
        · exact Or.inl (by simpa using h)⟩
    haveI : IsTrans (queryStats F) (fun a b => decide (b.tookTime > a.tookTime) = false) :=
      ⟨fun a b c hab hbc => by
        simp only [gt_iff_lt, decide_eq_false_iff_not, not_lt] at hab hbc ⊢
        exact le_trans hbc hab⟩
    exact List.sorted_insertionSort _ _
  intro i j hij
  have := List.pairwise_iff_get.1 hs i j hij
  simpa using this

/-- Witness of C10: the three entries with the times 5, 9 and 7 are ranked 9, 7,
5. -/
theorem rank_sorted_witness :
    (rank threeEntryMap 0).map (fun v => v.tookTime) = [9, 7, 5] ∧
    (rank threeEntryMap 0).Perm
      ((threeEntryMap.map (fun kv => kv.2)).filter (fun v => decide (v.count ≥ 0))) :=
  ⟨by decide, (rank_sorted threeEntryMap 0).2⟩


/-! ## Lemmas on the word characters of a rule name -/

theorem isWordChar_colon : isWordChar ':' = false := by decide

theorem filter_word_map (l : List Char) :
    (l.map (fun c => if isWordChar c then c else ':')).filter isWordChar =
      l.filter isWordChar := by
  induction l with
  | nil => rfl
  | cons c cs ih =>
    by_cases h : isWordChar c = true
    · simp [h, ih]
    · simp [h, ih, isWordChar_colon]

theorem filter_word_collapse : ∀ l : List Char,
    (collapse l).filter isWordChar = l.filter isWordChar
  | [] => rfl
  | [c] => by
    by_cases hc : c = ':'
    · subst hc; rfl
    · rw [collapse_cons_ne c [] hc]; rfl
  | c :: d :: rest => by
    by_cases hc : c = ':'
    · subst hc
      by_cases hd : d = ':'
      · subst hd
        rw [collapse_colon_colon, List.filter_cons_of_neg (by simp [isWordChar_colon]),
          List.filter_cons_of_neg (by simp [isWordChar_colon]),
          List.filter_cons_of_neg (by simp [isWordChar_colon]), filter_word_collapse rest]
      · rw [collapse_colon_ne d rest hd, List.filter_cons_of_neg (by simp [isWordChar_colon]),
          List.filter_cons_of_neg (by simp [isWordChar_colon]),
          filter_word_collapse (d :: rest)]
    · rw [collapse_cons_ne c _ hc]
      simp only [List.filter_cons, filter_word_collapse (d :: rest)]

theorem collapse_append_ne (c : Char) (y : List Char) (hc : c ≠ ':') : ∀ x : List Char,
    collapse (x ++ c :: y) = collapse x ++ c :: collapse y
  | [] => by rw [List.nil_append, collapse_cons_ne c y hc]; rfl
  | [a] => by
    by_cases ha : a = ':'
    · subst ha
      show collapse (':' :: c :: y) = collapse [':'] ++ c :: collapse y
      rw [collapse_colon_ne c y hc, collapse_cons_ne c y hc]; rfl
    · show collapse (a :: c :: y) = collapse [a] ++ c :: collapse y
      rw [collapse_cons_ne a _ ha, collapse_cons_ne c y hc, collapse_cons_ne a [] ha]; rfl
  | a :: b :: rest => by
    by_cases ha : a = ':'
    · subst ha
      by_cases hb : b = ':'
      · subst hb
        show collapse (':' :: ':' :: (rest ++ c :: y)) = _
        rw [collapse_colon_colon, collapse_colon_colon, collapse_append_ne c y hc rest]; rfl
      · show collapse (':' :: b :: (rest ++ c :: y)) = _
        rw [collapse_colon_ne b _ hb, collapse_colon_ne b rest hb]
        have := collapse_append_ne c y hc (b :: rest)
        rw [List.cons_append] at this
        rw [this]; rfl
    · show collapse (a :: (b :: rest ++ c :: y)) = _
      rw [collapse_cons_ne a _ ha, collapse_cons_ne a (b :: rest) ha,
        collapse_append_ne c y hc (b :: rest)]; rfl

theorem dropWhile_append_cons {α : Type} (p : α → Bool) (c : α) (y : List α) (hc : p c = false) :
    ∀ x : List α, List.dropWhile p (x ++ c :: y) = List.dropWhile p x ++ c :: y
  | [] => by simp [List.dropWhile, hc]
  | a :: x => by
    by_cases ha : p a = true
    · simp [List.dropWhile, ha, dropWhile_append_cons p c y hc x]
    · simp [List.dropWhile, ha]

theorem rdropWhile_append_cons {α : Type} (p : α → Bool) (c : α) (x y : List α)
    (hc : p c = false) :
    List.rdropWhile p (x ++ c :: y) = x ++ c :: List.rdropWhile p y := by
  unfold List.rdropWhile
  rw [List.reverse_append, List.reverse_cons, List.append_assoc, List.singleton_append,
    dropWhile_append_cons p c _ hc]
  simp

theorem filter_word_dropWhile (l : List Char) :
    (l.dropWhile (fun c => c == ':')).filter isWordChar = l.filter isWordChar := by
  induction l with
  | nil => rfl
  | cons a l ih =>
    by_cases ha : a = ':'
    · subst ha
      simp [List.dropWhile, ih, isWordChar_colon]
    · have h2 : (a == ':') = false := by simpa using ha
      rw [List.dropWhile_cons_of_neg (by simp [h2])]

theorem filter_word_rdropWhile (l : List Char) :
    (l.rdropWhile (fun c => c == ':')).filter isWordChar = l.filter isWordChar := by
  unfold List.rdropWhile
  rw [List.filter_reverse, filter_word_dropWhile, List.filter_reverse, List.reverse_reverse]

/-! ## C14 and C20: the word characters of a rule name -/

/-- C14.  For every input string, `toRuleName` keeps the word characters in
order and multiplicity: the word characters of the result are those of the
input, and two word characters adjacent in the input are adjacent in the
result, with the same word characters before and after them. -/
theorem toRuleName_order (s : String) :
    (toRuleName s).data.filter isWordChar = s.data.filter isWordChar ∧
    ∀ (a b : List Char) (c d : Char), s.data = a ++ c :: d :: b →
      isWordChar c = true → isWordChar d = true →
      ∃ a' b', (toRuleName s).data = a' ++ c :: d :: b' ∧
        a'.filter isWordChar = a.filter isWordChar ∧
        b'.filter isWordChar = b.filter isWordChar := by
  rw [toRuleName_data]
  refine ⟨?_, ?_⟩
  · rw [filter_word_rdropWhile, filter_word_dropWhile, filter_word_collapse, filter_word_map]
  · intro a b c d hs hc hd
    have hc' : c ≠ ':' := isWordChar_ne_colon c hc
    have hd' : d ≠ ':' := isWordChar_ne_colon d hd
    rw [hs]
    simp only [List.map_append, List.map_cons, hc, hd, if_true]
    rw [collapse_append_ne c _ hc', collapse_cons_ne d _ hd',
      dropWhile_append_cons _ c _ (by simpa using hc'),
      rdropWhile_append_cons _ c _ _ (by simpa using hc')]
    have e := rdropWhile_append_cons (fun c => c == ':') d []
      (collapse (List.map (fun c => if isWordChar c = true then c else ':') b))
      (by simpa using hd')
    rw [List.nil_append] at e
    rw [e]
    refine ⟨_, _, rfl, ?_, ?_⟩
    · rw [filter_word_dropWhile, filter_word_collapse, filter_word_map]
    · rw [filter_word_rdropWhile, filter_word_collapse, filter_word_map]

/-- Witness of C14: in "sum(rate(x))" the adjacent "u", "m" stay adjacent. -/
theorem toRuleName_order_witness :
    toRuleName "sum(rate(x))" = "sum:rate:x" ∧
    ∃ a' b', (toRuleName "sum(rate(x))").data = a' ++ 'u' :: 'm' :: b' ∧
      a'.filter isWordChar = ['s'] ∧
      b'.filter isWordChar = ("(rate(x))".data).filter isWordChar :=
  ⟨by decide,
   (toRuleName_order "sum(rate(x))").2 ['s'] "(rate(x))".data 'u' 'm' (by decide) (by decide)
     (by decide)⟩

/-- C20.  For every input string, `toRuleName` gives the empty string if and
only if the input holds no word character; so every text with a word character
gets a non-empty record name. -/
theorem toRuleName_empty_iff (s : String) :
    toRuleName s = "" ↔ ∀ c ∈ s.data, isWordChar c = false := by
  constructor
  · intro h c hc
    have h1 : (toRuleName s).data.filter isWordChar = s.data.filter isWordChar := by
      rw [toRuleName_data, filter_word_rdropWhile, filter_word_dropWhile, filter_word_collapse,
        filter_word_map]
    rw [h] at h1
    by_contra hw
    have : c ∈ s.data.filter isWordChar := List.mem_filter.2 ⟨hc, by simpa using hw⟩
    rw [← h1] at this
    simp at this
  · intro h
    apply String.ext
    rw [toRuleName_data]
    have hall : ∀ x ∈ collapse (s.data.map (fun c => if isWordChar c then c else ':')),
        (x == ':') = true := by
      intro x hx
      obtain ⟨a, ha, hax⟩ := List.mem_map.1 (mem_replaceAllAux _ 0 x hx)
      rw [h a ha] at hax
      simp at hax
      simp [← hax]
    rw [List.dropWhile_eq_nil_iff.2 hall]
    rfl

/-- Witness of C20: a text without word character gets the empty name, a text
with one does not. -/
theorem toRuleName_empty_iff_witness :
    toRuleName "+(:)" = "" ∧ toRuleName "+(x)" ≠ "" :=
  ⟨(toRuleName_empty_iff "+(:)").2 (by decide),
   fun h => absurd ((toRuleName_empty_iff "+(x)").1 h 'x' (by decide)) (by decide)⟩

/-! ## C15 and C16: the flag and the shape of the rule in progress -/

theorem wellShaped_fields (ts : List TransformConfiguration) (h : wellShaped ts) :
    (∀ t ∈ ts, t.Rollup.isSome = !t.Transform.isSome) ∧
    (ts.filter (fun t => t.Rollup.isSome)).length ≤ 1 := by
  rcases h with h | ⟨r, h⟩ | ⟨r, h⟩ <;> subst h <;> simp

theorem queryToRollupRule_of_run (ParseExpr : String → Except String Node) (query : String)
    (expr : Node) (hparse : ParseExpr query = .ok expr) (st : RuleState)
    (hrun : visitAll (initialState query) (nodes expr) = .ok st) :
    queryToRollupRule ParseExpr query =
      if st.valid = true then .ok (some st.rollupRule) else .ok none := by
  rw [queryToRollupRule_eq ParseExpr query expr hparse, hrun]
  cases h : st.valid <;> simp [h]

/-- C15.  The flag `valid` is absorbing: once the visits of a tree have left the
flag false, every later visit returns the same state (flag false, rule in
progress unchanged), and `queryToRollupRule` returns the nil rule. -/
theorem valid_absorbing (ParseExpr : String → Except String Node) (query : String)
    (expr : Node) (pre post : List Node) (st : RuleState)
    (hparse : ParseExpr query = .ok expr) (hnodes : nodes expr = pre ++ post)
    (hpre : visitAll (initialState query) pre = .ok st) (hv : st.valid = false) :
    (∀ n : Option Node, visit st n = .ok st) ∧
    (∀ l₁ l₂ : List Node, post = l₁ ++ l₂ → visitAll st l₁ = .ok st) ∧
    queryToRollupRule ParseExpr query = .ok none := by
  refine ⟨fun n => visit_invalid st n hv, fun l₁ _ _ => visitAll_invalid st l₁ hv, ?_⟩
  refine queryToRollupRule_of_invalid ParseExpr query expr hparse st ?_ hv
  rw [hnodes, visitAll_append, hpre]
  exact visitAll_invalid st post hv

/-- Witness of C15: in `sum(max(query_count))` the second aggregate clears the
flag, and the visit of the selector after it changes nothing. -/
theorem valid_absorbing_witness :
    visitAll (initialState "sum(max(query_count))")
        [nestedTree, .AggregateExpr "max" (.VectorSelector "query_count" 0 countMatchers)
          none [] false] =
      .ok ⟨false, { Name := "sum(max(query_count))", Filter := "",
                    Transforms := [⟨some { MetricName := "sum", GroupBy := [],
                                           Aggregations := ["sum"] }, none⟩] }⟩ ∧
    visitAll ⟨false, { Name := "sum(max(query_count))", Filter := "",
                       Transforms := [⟨some { MetricName := "sum", GroupBy := [],
                                              Aggregations := ["sum"] }, none⟩] }⟩
        [.VectorSelector "query_count" 0 countMatchers] =
      .ok ⟨false, { Name := "sum(max(query_count))", Filter := "",
                    Transforms := [⟨some { MetricName := "sum", GroupBy := [],
                                           Aggregations := ["sum"] }, none⟩] }⟩ ∧
    queryToRollupRule (fun _ => .ok nestedTree) "sum(max(query_count))" = .ok none :=
  ⟨by rfl,
   (valid_absorbing (fun _ => .ok nestedTree) "sum(max(query_count))" nestedTree
     [nestedTree, .AggregateExpr "max" (.VectorSelector "query_count" 0 countMatchers)
       none [] false]
     [.VectorSelector "query_count" 0 countMatchers] _ rfl rfl (by rfl) rfl).2.1
     [.VectorSelector "query_count" 0 countMatchers] [] rfl,
   (valid_absorbing (fun _ => .ok nestedTree) "sum(max(query_count))" nestedTree
     [nestedTree, .AggregateExpr "max" (.VectorSelector "query_count" 0 countMatchers)
       none [] false]
     [.VectorSelector "query_count" 0 countMatchers] _ rfl rfl (by rfl) rfl).2.2⟩

/-- C16.  After every node visit of `queryToRollupRule` the visits have not
panicked and `Transforms` has one of three shapes: empty, one rollup stage, or
Increase, a rollup stage, Add; every stage has exactly one of its two fields
set.  So the read of `Transforms[0].Rollup` in the call case never meets a nil
rollup, `queryToRollupRule` returns, and a returned rule has at most one rollup
stage. -/
theorem transforms_shape (ParseExpr : String → Except String Node) (query : String)
    (expr : Node) (hparse : ParseExpr query = .ok expr) :
    (∀ pre post : List Node, nodes expr = pre ++ post →
      ∃ st, visitAll (initialState query) pre = .ok st ∧
        wellShaped st.rollupRule.Transforms ∧
        ∀ t ∈ st.rollupRule.Transforms, t.Rollup.isSome = !t.Transform.isSome) ∧
    (∃ r, queryToRollupRule ParseExpr query = .ok r) ∧
    (∀ rule, queryToRollupRule ParseExpr query = .ok (some rule) →
      wellShaped rule.Transforms ∧
      (rule.Transforms.filter (fun t => t.Rollup.isSome)).length ≤ 1) := by
  refine ⟨fun pre _ _ => ?_, ?_, fun rule hrule => ?_⟩
  · obtain ⟨st, hrun, hw, -⟩ := visitAll_spec pre (initialState query) (Or.inl rfl)
    exact ⟨st, hrun, hw, (wellShaped_fields _ hw).1⟩
  · obtain ⟨st, hrun, -⟩ := visitAll_spec (nodes expr) (initialState query) (Or.inl rfl)
    rw [queryToRollupRule_of_run ParseExpr query expr hparse st hrun]
    split <;> exact ⟨_, rfl⟩
  · obtain ⟨st, hrun, hw, -⟩ := visitAll_spec (nodes expr) (initialState query) (Or.inl rfl)
    rw [queryToRollupRule_of_run ParseExpr query expr hparse st hrun] at hrule
    split at hrule
    · simp only [Except.ok.injEq, Option.some.injEq] at hrule
      subst hrule
      exact ⟨hw, (wellShaped_fields _ hw).2⟩
    · simp at hrule

/-- Witness of C16: `sum(rate(...))` of the tests returns a rule of the third
shape. -/
theorem transforms_shape_witness :
    ∃ r, queryToRollupRule (fun _ => .ok taggedRateTree) taggedRateQuery = .ok r :=
  (transforms_shape (fun _ => .ok taggedRateTree) taggedRateQuery taggedRateTree rfl).2.1

/-! ## C17: the rollup mode -/

theorem queryToRollupRule_ok (ParseExpr : String → Except String Node) (query : String) :
    ∃ r, queryToRollupRule ParseExpr query = .ok r := by
  cases hparse : ParseExpr query with
  | error e => exact ⟨none, by simp [queryToRollupRule, hparse]⟩
  | ok expr =>
    obtain ⟨st, hrun, -⟩ := visitAll_spec (nodes expr) (initialState query) (Or.inl rfl)
    rw [queryToRollupRule_of_run ParseExpr query expr hparse st hrun]
    split <;> exact ⟨_, rfl⟩

theorem rollupLoop_eq {F : Type} (ParseExpr : String → Except String Node)
    (arr : List (queryStats F)) : ∀ (rules : List RollupRuleConfiguration) (failed : List String),
    rollupLoop ParseExpr arr rules failed =
      .ok (rules ++ arr.filterMap (fun v => ruleOf ParseExpr v.query),
           failed ++ arr.filterMap (fun v => failureOf ParseExpr v.query)) := by
  induction arr with
  | nil => intro rules failed; simp [rollupLoop]
  | cons v rest ih =>
    intro rules failed
    obtain ⟨r, hr⟩ := queryToRollupRule_ok ParseExpr v.query
    cases r with
    | none =>
      simp only [rollupLoop, hr, ih, List.filterMap_cons, ruleOf, failureOf, List.append_assoc,
        List.singleton_append]
    | some r =>
      simp only [rollupLoop, hr, ih, List.filterMap_cons, ruleOf, failureOf, List.append_assoc,
        List.singleton_append]

theorem length_rules_failures {F : Type} (ParseExpr : String → Except String Node)
    (arr : List (queryStats F)) :
    (arr.filterMap (fun v => ruleOf ParseExpr v.query)).length +
      (arr.filterMap (fun v => failureOf ParseExpr v.query)).length = arr.length := by
  induction arr with
  | nil => rfl
  | cons v rest ih =>
    obtain ⟨r, hr⟩ := queryToRollupRule_ok ParseExpr v.query
    cases r with
    | none =>
      have h1 : ruleOf ParseExpr v.query = none := by simp [ruleOf, hr]
      have h2 : failureOf ParseExpr v.query = some v.query := by simp [failureOf, hr]
      simp only [List.filterMap_cons, h1, h2, List.length_cons]
      omega
    | some r =>
      have h1 : ruleOf ParseExpr v.query = some r := by simp [ruleOf, hr]
      have h2 : failureOf ParseExpr v.query = none := by simp [failureOf, hr]
      simp only [List.filterMap_cons, h1, h2, List.length_cons]
      omega

/-- C17.  In rollup mode, for every ranked list, the loop does not fail; the
rules it emits are the rules `queryToRollupRule` returns for the queries of the
list, in ranked order; the failed queries are the queries for which it returns
the nil rule, in ranked order; the two lengths add up to the length of the
list; and the rules of a list `l₁ ++ v :: l₂` are the rules of `l₁`, the rule
of `v`, then the rules of `l₂`, whatever the other queries do. -/
theorem rollupMode_lists {F : Type} (ParseExpr : String → Except String Node)
    (arr : List (queryStats F)) :
    rollupMode ParseExpr arr =
      .ok (arr.filterMap (fun v => ruleOf ParseExpr v.query),
           arr.filterMap (fun v => failureOf ParseExpr v.query)) ∧
    (arr.filterMap (fun v => ruleOf ParseExpr v.query)).length +
      (arr.filterMap (fun v => failureOf ParseExpr v.query)).length = arr.length ∧
    (∀ (l₁ l₂ : List (queryStats F)) (v : queryStats F) (r : RollupRuleConfiguration),
      arr = l₁ ++ v :: l₂ → queryToRollupRule ParseExpr v.query = .ok (some r) →
      arr.filterMap (fun v => ruleOf ParseExpr v.query) =
        l₁.filterMap (fun v => ruleOf ParseExpr v.query) ++
          r :: l₂.filterMap (fun v => ruleOf ParseExpr v.query)) := by
  refine ⟨?_, length_rules_failures ParseExpr arr, ?_⟩
  · unfold rollupMode
    rw [rollupLoop_eq]
    rfl
  · intro l₁ l₂ v r harr hr
    rw [harr, List.filterMap_append, List.filterMap_cons]
    simp only [ruleOf, hr]

/-- Witness of C17: of three ranked queries the second has no rule; the rules
of the first and the third are emitted in order and the second is reported. -/
theorem rollupMode_lists_witness :
    rollupMode exampleParse exampleRanked =
      .ok ([{ Name := "sum(query_count)", Filter := "__name__:query_count",
              Transforms := [⟨some { MetricName := "sum:query_count", GroupBy := [],
                                     Aggregations := ["sum"] }, none⟩] },
            { Name := "sum(query_count)", Filter := "__name__:query_count",
              Transforms := [⟨some { MetricName := "sum:query_count", GroupBy := [],
                                     Aggregations := ["sum"] }, none⟩] }],
           ["sum(max(query_count))"]) :=
  (rollupMode_lists exampleParse exampleRanked).1.trans (by rfl)

/-! ## C13: the lines of the log that lack an object -/

/-- C13 fails on the code.  A line that is not JSON is skipped and the map is
unchanged, and a complete line is counted; but a line that is valid JSON and
lacks the stats object, the timings object or (once the duration has passed the
threshold) the parameters object makes the body of the loop panic on a nil
pointer, and the panic ends the run: the lines after it are not processed. -/
theorem processLine_missing_object :
    processLine exampleUnmarshal exampleDuration exampleParse opRender 0 oneEntryMap
        "not json" = .ok oneEntryMap ∧
    processLine exampleUnmarshal exampleDuration exampleParse opRender 0 oneEntryMap
        "\x7b\"params\":\x7b\"query\":\"sum(query_count)\"\x7d,\"stats\":\x7b\"timings\":\x7b\"innerEvalTime\":3\x7d\x7d\x7d" =
      .ok [("sum", ⟨"sum", 8, 3⟩)] ∧
    processLine exampleUnmarshal exampleDuration exampleParse opRender 0 oneEntryMap
        "\x7b\x7d" = .error .nilDereference ∧
    processLine exampleUnmarshal exampleDuration exampleParse opRender 0 oneEntryMap
        "\x7b\"params\":\x7b\"query\":\"sum(query_count)\"\x7d,\"stats\":\x7b\x7d\x7d" =
      .error .nilDereference ∧
    processLine exampleUnmarshal exampleDuration exampleParse opRender 0 oneEntryMap
        "\x7b\"stats\":\x7b\"timings\":\x7b\"innerEvalTime\":3\x7d\x7d\x7d" =
      .error .nilDereference ∧
    processLog exampleUnmarshal exampleDuration exampleParse opRender 0 oneEntryMap
        ["\x7b\x7d",
         "\x7b\"params\":\x7b\"query\":\"sum(query_count)\"\x7d,\"stats\":\x7b\"timings\":\x7b\"innerEvalTime\":3\x7d\x7d\x7d"] =
      .error .nilDereference := by
  refine ⟨by rfl, by rfl, by rfl, by rfl, by rfl, by rfl⟩

/-! ## C19: what the rule synthesis does not read -/

mutual
theorem nodes_erase : ∀ t : Node, nodes (erase t) = (nodes t).map erase
  | .AggregateExpr op e p g w => by
      simp only [erase, nodes, List.map_cons, List.map_append, nodes_erase e, nodesOpt_erase p]
  | .BinaryExpr op l r => by
      simp only [erase, nodes, List.map_cons, List.map_append, nodes_erase l, nodes_erase r]
  | .Call fn args => by
      simp only [erase, nodes, List.map_cons, nodesList_erase args]
  | .MatrixSelector v r => by
      simp only [erase, nodes, List.map_cons, nodes_erase v]
  | .SubqueryExpr e r o st => by
      simp only [erase, nodes, List.map_cons, nodes_erase e]
  | .NumberLiteral => rfl
  | .ParenExpr e => by
      simp only [erase, nodes, List.map_cons, nodes_erase e]
  | .StringLiteral v => rfl
  | .UnaryExpr op e => by
      simp only [erase, nodes, List.map_cons, nodes_erase e]
  | .VectorSelector n o l => rfl
theorem nodesOpt_erase : ∀ p : Option Node, nodesOpt (eraseOpt p) = (nodesOpt p).map erase
  | none => rfl
  | some e => by simp only [eraseOpt, nodesOpt, nodes_erase e]
theorem nodesList_erase : ∀ es : List Node, nodesList (eraseList es) = (nodesList es).map erase
  | [] => rfl
  | e :: es => by
      simp only [eraseList, nodesList, List.map_append, nodes_erase e, nodesList_erase es]
end

theorem metricNameLoop_erase (r : RollupOperationConfiguration) (filter : String)
    (ms : List Matcher) :
    metricNameLoop r filter (ms.map eraseMatcher) = metricNameLoop r filter ms := by
  induction ms with
  | nil => rfl
  | cons l ls ih => simp only [List.map_cons, metricNameLoop, eraseMatcher, ih]

theorem labelLoop_erase (ms : List Matcher) :
    ∀ (r : RollupOperationConfiguration) (filter : String),
    labelLoop r filter (ms.map eraseMatcher) = labelLoop r filter ms := by
  induction ms with
  | nil => intro r filter; rfl
  | cons l ls ih => intro r filter; simp only [List.map_cons, labelLoop, eraseMatcher, ih]

theorem selectorLoop_erase (ms : List Matcher) (filter : String)
    (ts : List TransformConfiguration) :
    selectorLoop (ms.map eraseMatcher) filter ts = selectorLoop ms filter ts := by
  induction ts with
  | nil => rfl
  | cons t ts ih =>
    simp only [selectorLoop, selectorBody, metricNameLoop_erase, labelLoop_erase, ih]

theorem visit_erase (st : RuleState) (n : Node) :
    visit st (some (erase n)) = visit st (some n) := by
  cases n <;> simp only [erase, visit, selectorLoop_erase]

theorem visitAll_erase (l : List Node) : ∀ st : RuleState,
    visitAll st (l.map erase) = visitAll st l := by
  induction l with
  | nil => intro st; rfl
  | cons n ns ih =>
    intro st
    unfold visitAll at ih ⊢
    simp only [List.map_cons, List.foldlM_cons, visit_erase]
    congr 1
    funext s
    exact ih s

theorem visit_withName (query : String) (st : RuleState) (n : Node) :
    visit (withName query st) (some n) = (visit st (some n)).map (withName query) := by
  obtain ⟨valid, ⟨filter, ts, name⟩⟩ := st
  cases valid
  · simp [visit, withName, Except.map]
  · cases n <;> simp [visit, withName, Except.map]
    · split_ifs <;> rfl
    · split_ifs
      · cases ts[0]? with
        | none => rfl
        | some t0 =>
          obtain ⟨rollup, transform⟩ := t0
          cases rollup with
          | none => rfl
          | some r => rfl
      · rfl
    · split_ifs <;> rfl

theorem visitAll_withName (query : String) (l : List Node) : ∀ st : RuleState,
    visitAll (withName query st) l = (visitAll st l).map (withName query) := by
  induction l with
  | nil => intro st; rfl
  | cons n ns ih =>
    intro st
    unfold visitAll at ih ⊢
    rw [List.foldlM_cons, List.foldlM_cons, visit_withName]
    cases visit st (some n) with
    | error p => rfl
    | ok s => exact ih s

/-- C19.  The filter and the transforms that `queryToRollupRule` produces are
determined by the kinds of the nodes, the operator of the aggregate, the name
of the called function and the names and values of the label matchers: two
trees with the same erasure, for instance two trees that differ in the grouping
of the aggregate, in the comparisons of the matchers, or in the range or the
offset of the selectors, give the same outcome, and in case of success the same
filter and the same transforms, whatever the two query texts are. -/
theorem ignored_inputs (P₁ P₂ : String → Except String Node) (q₁ q₂ : String) (t₁ t₂ : Node)
    (h₁ : P₁ q₁ = .ok t₁) (h₂ : P₂ q₂ = .ok t₂) (he : erase t₁ = erase t₂) :
    filterAndTransforms (queryToRollupRule P₁ q₁) =
      filterAndTransforms (queryToRollupRule P₂ q₂) := by
  obtain ⟨st, hrun, -⟩ := visitAll_spec (nodes t₂) (initialState q₂) (Or.inl rfl)
  have hnodes : ∀ s, visitAll s (nodes t₁) = visitAll s (nodes t₂) := by
    intro s
    rw [← visitAll_erase (nodes t₁), ← visitAll_erase (nodes t₂), ← nodes_erase, ← nodes_erase, he]
  have hrun₁ : visitAll (initialState q₁) (nodes t₁) = .ok (withName q₁ st) := by
    rw [hnodes]
    have : initialState q₁ = withName q₁ (initialState q₂) := rfl
    rw [this, visitAll_withName, hrun]
    rfl
  rw [queryToRollupRule_of_run P₁ q₁ t₁ h₁ _ hrun₁, queryToRollupRule_of_run P₂ q₂ t₂ h₂ _ hrun]
  cases hv : st.valid <;> simp [withName, hv, filterAndTransforms]

/-- Witness of C19: the tree of the test and a tree with a grouping, other
comparisons, another range and an offset give the same filter and transforms. -/
theorem ignored_inputs_witness :
    filterAndTransforms (queryToRollupRule (fun _ => .ok taggedRateTree) taggedRateQuery) =
      filterAndTransforms (queryToRollupRule (fun _ => .ok variantRateTree) "variant") ∧
    filterAndTransforms (queryToRollupRule (fun _ => .ok variantRateTree) "variant") =
      .ok (some ("__name__:query_duration_seconds tag1:foo tag2:bar",
        [⟨none, some ⟨"Increase"⟩⟩,
         ⟨some { MetricName := "sum:rate:query_duration_seconds:tag1:foo:tag2:bar",
                 GroupBy := ["tag1", "tag2"], Aggregations := ["sum"] }, none⟩,
         ⟨none, some ⟨"Add"⟩⟩])) :=
  ⟨ignored_inputs (fun _ => .ok taggedRateTree) (fun _ => .ok variantRateTree) taggedRateQuery
     "variant" taggedRateTree variantRateTree rfl rfl (by rfl),
   by rfl⟩

/-! ## The state machine of the rule synthesis -/

theorem phase_visit (st : RuleState) (n : Node) (hw : wellShaped st.rollupRule.Transforms) :
    ∃ st', visit st (some n) = .ok st' ∧ wellShaped st'.rollupRule.Transforms ∧
      phaseOf st' = phaseStep (phaseOf st) n := by
  by_cases hv : st.valid = false
  · refine ⟨st, visit_invalid st _ hv, hw, ?_⟩
    simp [phaseOf, hv, phaseStep]
  · have hv' : st.valid = true := by simpa using hv
    obtain ⟨valid, ⟨filter, ts, name⟩⟩ := st
    simp only at hw hv' ⊢
    subst hv'
    rcases hw with h | ⟨r, h⟩ | ⟨r, h⟩ <;> subst h <;> cases n <;>
      simp [visit, phaseOf, phaseStep, isAggregateExpr, isCall, unsupported, wellShaped,
        selectorLoop, isMatrixSelector, isVectorSelector] <;>
      split <;> simp_all

theorem phase_visitAll (l : List Node) : ∀ st : RuleState,
    wellShaped st.rollupRule.Transforms →
    ∃ st', visitAll st l = .ok st' ∧ wellShaped st'.rollupRule.Transforms ∧
      phaseOf st' = l.foldl phaseStep (phaseOf st) := by
  induction l with
  | nil => intro st hw; exact ⟨st, rfl, hw, rfl⟩
  | cons n ns ih =>
    intro st hw
    obtain ⟨s1, h1, hw1, hp1⟩ := phase_visit st n hw
    obtain ⟨s2, h2, hw2, hp2⟩ := ih s1 hw1
    exact ⟨s2, by rw [visitAll_cons st s1 n ns h1]; exact h2, hw2, by
      rw [hp2, hp1]; rfl⟩

theorem foldl_phaseStep_invalid (l : List Node) : l.foldl phaseStep .invalid = .invalid := by
  induction l with
  | nil => rfl
  | cons n ns ih => simpa [List.foldl_cons, phaseStep] using ih

theorem selector_iff (n : Node) :
    (isMatrixSelector n || isVectorSelector n) = true ↔
      unsupported n = false ∧ isAggregateExpr n = false ∧ isCall n = false := by
  cases n <;> simp [isMatrixSelector, isVectorSelector, unsupported, isAggregateExpr, isCall]

theorem foldl_phaseStep_wrapped (l : List Node) :
    l.foldl phaseStep .wrapped ≠ .invalid ↔
      ∀ n ∈ l, (isMatrixSelector n || isVectorSelector n) = true := by
  induction l with
  | nil => simp
  | cons n ns ih =>
    rw [List.foldl_cons]
    by_cases h : (isMatrixSelector n || isVectorSelector n) = true
    · have : phaseStep .wrapped n = .wrapped := by simp [phaseStep, h]
      rw [this, ih]
      constructor
      · intro hall m hm
        rcases List.mem_cons.1 hm with rfl | hm
        · exact h
        · exact hall m hm
      · intro hall m hm
        exact hall m (List.mem_cons_of_mem _ hm)
    · have : phaseStep .wrapped n = .invalid := by simp [phaseStep, h]
      rw [this, foldl_phaseStep_invalid]
      simp only [ne_eq, not_true_eq_false, false_iff]
      intro hall
      exact h (hall n (List.mem_cons_self _ _))

theorem foldl_phaseStep_aggregated (l : List Node) :
    l.foldl phaseStep .aggregated ≠ .invalid ↔
      (∀ n ∈ l, unsupported n = false ∧ isAggregateExpr n = false) ∧ l.countP isCall ≤ 1 := by
  induction l with
  | nil => simp
  | cons n ns ih =>
    rw [List.foldl_cons]
    by_cases h : (isMatrixSelector n || isVectorSelector n) = true
    · have hs : phaseStep .aggregated n = .aggregated := by simp [phaseStep, h]
      obtain ⟨h1, h2, h3⟩ := (selector_iff n).1 h
      rw [hs, ih, List.countP_cons_of_neg _ _ (by simp [h3])]
      simp [h1, h2]
    · by_cases hc : (isCall n && !unsupported n) = true
      · have hs : phaseStep .aggregated n = .wrapped := by simp [phaseStep, h, hc]
        have hc1 : isCall n = true := by simp at hc; exact hc.1
        have hc2 : unsupported n = false := by simp at hc; exact hc.2
        have hc3 : isAggregateExpr n = false := by
          cases n <;> first | rfl | simp [isCall] at hc1
        rw [hs, foldl_phaseStep_wrapped, List.countP_cons_of_pos _ _ hc1]
        constructor
        · intro hall
          refine ⟨?_, ?_⟩
          · intro m hm
            rcases List.mem_cons.1 hm with rfl | hm
            · exact ⟨hc2, hc3⟩
            · exact ⟨((selector_iff m).1 (hall m hm)).1, ((selector_iff m).1 (hall m hm)).2.1⟩
          · have : ns.countP isCall = 0 := by
              rw [List.countP_eq_zero]
              intro m hm
              simp [((selector_iff m).1 (hall m hm)).2.2]
            omega
        · rintro ⟨hall, hcnt⟩ m hm
          have h0 : ns.countP isCall = 0 := by omega
          rw [List.countP_eq_zero] at h0
          have := hall m (List.mem_cons_of_mem _ hm)
          exact (selector_iff m).2 ⟨this.1, this.2, by simpa using h0 m hm⟩
      · have hs : phaseStep .aggregated n = .invalid := by simp [phaseStep, h, hc]
        rw [hs, foldl_phaseStep_invalid]
        simp only [ne_eq, not_true_eq_false, false_iff, not_and]
        intro hall
        exfalso
        have hn := hall n (List.mem_cons_self _ _)
        by_cases hcall : isCall n = true
        · exact hc (by simp [hcall, hn.1])
        · exact h ((selector_iff n).2 ⟨hn.1, hn.2, by simpa using hcall⟩)

theorem foldl_phaseStep_start (l : List Node) :
    l.foldl phaseStep .start ≠ .invalid ↔
      (∀ n ∈ l, isMatrixSelector n = true) ∨ accepted l := by
  induction l with
  | nil => simp
  | cons n ns ih =>
    rw [List.foldl_cons]
    by_cases h : isMatrixSelector n = true
    · have hs : phaseStep .start n = .start := by simp [phaseStep, h]
      have hna : isAggregateExpr n = false := by
        cases n <;> first | rfl | simp [isMatrixSelector] at h
      rw [hs, ih]
      constructor
      · rintro (hall | ⟨pre, a, post, hl, hpre, ha, hu, hpost, hcnt⟩)
        · exact Or.inl (by simpa [h] using hall)
        · exact Or.inr ⟨n :: pre, a, post, by rw [hl]; rfl, by simpa [h] using hpre, ha, hu,
            hpost, hcnt⟩
      · rintro (hall | ⟨pre, a, post, hl, hpre, ha, hu, hpost, hcnt⟩)
        · exact Or.inl (fun m hm => hall m (List.mem_cons_of_mem _ hm))
        · cases pre with
          | nil =>
            simp only [List.nil_append, List.cons.injEq] at hl
            rw [hl.1, ha] at hna
            exact absurd hna (by simp)
          | cons p pre =>
            simp only [List.cons_append, List.cons.injEq] at hl
            exact Or.inr ⟨pre, a, post, hl.2,
              fun m hm => hpre m (List.mem_cons_of_mem _ hm), ha, hu, hpost, hcnt⟩
    · by_cases hc : (isAggregateExpr n && !unsupported n) = true
      · have hs : phaseStep .start n = .aggregated := by simp [phaseStep, h, hc]
        have hc1 : isAggregateExpr n = true := by simp at hc; exact hc.1
        have hc2 : unsupported n = false := by simp at hc; exact hc.2
        rw [hs, foldl_phaseStep_aggregated]
        constructor
        · rintro ⟨hall, hcnt⟩
          exact Or.inr ⟨[], n, ns, rfl, by simp, hc1, hc2, hall, hcnt⟩
        · rintro (hall | ⟨pre, a, post, hl, hpre, ha, hu, hpost, hcnt⟩)
          · exact absurd (hall n (List.mem_cons_self _ _)) h
          · cases pre with
            | nil =>
              simp only [List.nil_append, List.cons.injEq] at hl
              rw [hl.2]
              exact ⟨hpost, hcnt⟩
            | cons p pre =>
              simp only [List.cons_append, List.cons.injEq] at hl
              exact absurd (hl.1 ▸ hpre p (List.mem_cons_self _ _)) h
      · have hs : phaseStep .start n = .invalid := by simp [phaseStep, h, hc]
        rw [hs, foldl_phaseStep_invalid]
        simp only [ne_eq, not_true_eq_false, false_iff, not_or]
        refine ⟨fun hall => h (hall n (List.mem_cons_self _ _)), ?_⟩
        rintro ⟨pre, a, post, hl, hpre, ha, hu, hpost, hcnt⟩
        cases pre with
        | nil =>
          simp only [List.nil_append, List.cons.injEq] at hl
          exact hc (by rw [hl.1]; simp [ha, hu])
        | cons p pre =>
          simp only [List.cons_append, List.cons.injEq] at hl
          exact absurd (hl.1 ▸ hpre p (List.mem_cons_self _ _)) h

theorem exists_not_matrix : ∀ t : Node, ∃ n ∈ nodes t, isMatrixSelector n = false
  | .MatrixSelector v r => by
      obtain ⟨n, hn, h⟩ := exists_not_matrix v
      exact ⟨n, by simp [nodes, hn], h⟩
  | .AggregateExpr op e p g w => ⟨.AggregateExpr op e p g w, by simp [nodes], rfl⟩
  | .BinaryExpr op l r => ⟨.BinaryExpr op l r, by simp [nodes], rfl⟩
  | .Call fn args => ⟨.Call fn args, by simp [nodes], rfl⟩
  | .SubqueryExpr e r o st => ⟨.SubqueryExpr e r o st, by simp [nodes], rfl⟩
  | .NumberLiteral => ⟨.NumberLiteral, by simp [nodes], rfl⟩
  | .ParenExpr e => ⟨.ParenExpr e, by simp [nodes], rfl⟩
  | .StringLiteral v => ⟨.StringLiteral v, by simp [nodes], rfl⟩
  | .UnaryExpr op e => ⟨.UnaryExpr op e, by simp [nodes], rfl⟩
  | .VectorSelector n o l => ⟨.VectorSelector n o l, by simp [nodes], rfl⟩

theorem phaseOf_ne_invalid (st : RuleState) : phaseOf st ≠ .invalid ↔ st.valid = true := by
  unfold phaseOf
  cases hv : st.valid
  · simp
  · simp only [if_true, ne_eq, iff_true]
    split <;> simp

/-- The final state of the traversal of a tree: it exists, it is valid exactly
when the state machine accepts the nodes of the tree, and `queryToRollupRule`
returns its rule when it is valid and the nil rule otherwise. -/
theorem final_state (ParseExpr : String → Except String Node) (query : String) (expr : Node)
    (hparse : ParseExpr query = .ok expr) :
    ∃ st, visitAll (initialState query) (nodes expr) = .ok st ∧
      wellShaped st.rollupRule.Transforms ∧
      (st.valid = true ↔ accepted (nodes expr)) ∧
      queryToRollupRule ParseExpr query =
        if st.valid = true then .ok (some st.rollupRule) else .ok none := by
  obtain ⟨st, hrun, hw, hp⟩ := phase_visitAll (nodes expr) (initialState query) (Or.inl rfl)
  refine ⟨st, hrun, hw, ?_, queryToRollupRule_of_run ParseExpr query expr hparse st hrun⟩
  have h0 : phaseOf (initialState query) = .start := rfl
  rw [← phaseOf_ne_invalid, hp, h0, foldl_phaseStep_start]
  constructor
  · rintro (hall | h)
    · obtain ⟨n, hn, hm⟩ := exists_not_matrix expr
      rw [hall n hn] at hm
      exact absurd hm (by simp)
    · exact h
  · exact Or.inr

theorem success_iff_accepted (ParseExpr : String → Except String Node) (query : String)
    (expr : Node) (hparse : ParseExpr query = .ok expr) :
    (∃ rule, queryToRollupRule ParseExpr query = .ok (some rule)) ↔ accepted (nodes expr) := by
  obtain ⟨st, -, -, hv, hres⟩ := final_state ParseExpr query expr hparse
  rw [hres, ← hv]
  cases h : st.valid <;> simp

theorem matrix_iff (n : Node) :
    isMatrixSelector n = true ↔
      unsupported n = false ∧ isAggregateExpr n = false ∧ isCall n = false ∧
        isVectorSelector n = false := by
  cases n <;> simp [isMatrixSelector, isVectorSelector, unsupported, isAggregateExpr, isCall]

theorem countP_eq_one_split {α : Type} (p : α → Bool) (l : List α) (h : l.countP p = 1) :
    ∃ pre a post, l = pre ++ a :: post ∧ p a = true ∧ (∀ n ∈ pre, p n = false) ∧
      (∀ n ∈ post, p n = false) := by
  induction l with
  | nil => simp at h
  | cons n ns ih =>
    by_cases hn : p n = true
    · rw [List.countP_cons_of_pos _ _ hn] at h
      have h0 : ns.countP p = 0 := by omega
      rw [List.countP_eq_zero] at h0
      exact ⟨[], n, ns, rfl, hn, by simp, fun m hm => by simpa using h0 m hm⟩
    · rw [List.countP_cons_of_neg _ _ hn] at h
      obtain ⟨pre, a, post, hl, ha, hpre, hpost⟩ := ih h
      refine ⟨n :: pre, a, post, by rw [hl]; rfl, ha, ?_, hpost⟩
      intro m hm
      rcases List.mem_cons.1 hm with rfl | hm
      · simpa using hn
      · exact hpre m hm

theorem countP_eq_zero_of_forall {α : Type} (p : α → Bool) (l : List α)
    (h : ∀ n ∈ l, p n = false) : l.countP p = 0 := by
  rw [List.countP_eq_zero]
  intro n hn
  simp [h n hn]

/-- The lists that the state machine accepts, in the words of the claim: one
aggregate, no unsupported node, at most one call, and no call and no vector
selector before the aggregate. -/
theorem accepted_iff (l : List Node) :
    accepted l ↔
      l.countP isAggregateExpr = 1 ∧ (∀ n ∈ l, unsupported n = false) ∧
      l.countP isCall ≤ 1 ∧
      (∀ pre a post, l = pre ++ a :: post → isAggregateExpr a = true →
        ∀ n ∈ pre, isCall n = false ∧ isVectorSelector n = false) := by
  constructor
  · rintro ⟨pre, a, post, hl, hpre, ha, hu, hpost, hcnt⟩
    have hacall : isCall a = false := by
      cases a <;> first | rfl | simp [isAggregateExpr] at ha
    subst hl
    refine ⟨?_, ?_, ?_, ?_⟩
    · rw [List.countP_append, List.countP_cons_of_pos _ _ ha,
        countP_eq_zero_of_forall _ pre (fun n hn => ((matrix_iff n).1 (hpre n hn)).2.1),
        countP_eq_zero_of_forall _ post (fun n hn => (hpost n hn).2)]
    · intro n hn
      rcases List.mem_append.1 hn with hn | hn
      · exact ((matrix_iff n).1 (hpre n hn)).1
      · rcases List.mem_cons.1 hn with rfl | hn
        · exact hu
        · exact (hpost n hn).1
    · rw [List.countP_append, List.countP_cons_of_neg _ _ (by simp [hacall]),
        countP_eq_zero_of_forall _ pre (fun n hn => ((matrix_iff n).1 (hpre n hn)).2.2.1)]
      omega
    · intro pre' a' post' hl' ha' n hn
      have hmat : isMatrixSelector n = true := by
        rcases List.append_eq_append_iff.1 hl' with ⟨c, hc1, hc2⟩ | ⟨c, hc1, hc2⟩
        · cases c with
          | nil =>
            simp only [List.append_nil] at hc1
            rw [hc1] at hn
            exact hpre n hn
          | cons x c =>
            simp only [List.cons_append, List.cons.injEq] at hc2
            have ha'post : a' ∈ post := by
              rw [hc2.2]; simp
            exact absurd ha' (by simp [(hpost a' ha'post).2])
        · have : n ∈ pre := by rw [hc1]; exact List.mem_append_left _ hn
          exact hpre n this
      exact ⟨((matrix_iff n).1 hmat).2.2.1, ((matrix_iff n).1 hmat).2.2.2⟩
  · rintro ⟨hone, hsup, hcall, hprec⟩
    obtain ⟨pre, a, post, hl, ha, hpre, hpost⟩ := countP_eq_one_split _ l hone
    refine ⟨pre, a, post, hl, ?_, ha, hsup a (by rw [hl]; simp), ?_, ?_⟩
    · intro n hn
      exact (matrix_iff n).2 ⟨hsup n (by rw [hl]; simp [hn]), hpre n hn,
        (hprec pre a post hl ha n hn).1, (hprec pre a post hl ha n hn).2⟩
    · intro n hn
      exact ⟨hsup n (by rw [hl]; simp [hn]), hpost n hn⟩
    · have : post.countP isCall ≤ l.countP isCall := by
        rw [hl, List.countP_append, List.countP_cons]
        omega
      omega

/-! ## C18: the trees that are accepted -/

theorem wellShaped_rollup_length (ts : List TransformConfiguration) (h : wellShaped ts)
    (hne : ts ≠ []) : (ts.filter (fun t => t.Rollup.isSome)).length = 1 := by
  rcases h with h | ⟨r, h⟩ | ⟨r, h⟩ <;> subst h <;> simp at hne ⊢

theorem transforms_ne_nil_of_accepted (query : String) (l : List Node) (st : RuleState)
    (hrun : visitAll (initialState query) l = .ok st) (hv : st.valid = true)
    (hacc : accepted l) : st.rollupRule.Transforms ≠ [] := by
  obtain ⟨st', hrun', -, -, -, hc, -⟩ := visitAll_spec l (initialState query) (Or.inl rfl)
  rw [hrun] at hrun'
  cases hrun'
  have hone := ((accepted_iff l).1 hacc).1
  rcases hc (by omega) with h | h
  · rw [hv] at h; exact absurd h (by simp)
  · exact h

/-- C18.  For every expression tree (so also for those in which every matrix
selector has a vector selector as its child), `queryToRollupRule` returns a rule
if and only if the tree holds exactly one aggregate node, no node of a kind
other than aggregate, call, matrix selector and vector selector, no aggregate
operator outside the whitelist and no function other than "rate" (ignoring
case), at most one call node, and no call and no vector selector before the
aggregate in pre-order; and every rule that is returned has non-empty
transforms with exactly one rollup stage. -/
theorem success_condition (ParseExpr : String → Except String Node) (query : String)
    (expr : Node) (hparse : ParseExpr query = .ok expr) :
    ((∃ rule, queryToRollupRule ParseExpr query = .ok (some rule)) ↔
      (nodes expr).countP isAggregateExpr = 1 ∧
      (∀ n ∈ nodes expr, unsupported n = false) ∧
      (nodes expr).countP isCall ≤ 1 ∧
      (∀ pre a post, nodes expr = pre ++ a :: post → isAggregateExpr a = true →
        ∀ n ∈ pre, isCall n = false ∧ isVectorSelector n = false)) ∧
    (∀ rule, queryToRollupRule ParseExpr query = .ok (some rule) →
      rule.Transforms ≠ [] ∧
      (rule.Transforms.filter (fun t => t.Rollup.isSome)).length = 1) := by
  refine ⟨?_, ?_⟩
  · rw [success_iff_accepted ParseExpr query expr hparse, accepted_iff]
  · intro rule hrule
    obtain ⟨st, hrun, hw, hv, hres⟩ := final_state ParseExpr query expr hparse
    rw [hres] at hrule
    split at hrule
    · rename_i hvalid
      simp only [Except.ok.injEq, Option.some.injEq] at hrule
      subst hrule
      have hne := transforms_ne_nil_of_accepted query (nodes expr) st hrun hvalid (hv.1 hvalid)
      exact ⟨hne, wellShaped_rollup_length _ hw hne⟩
    · simp at hrule

/-- Witness of C18: the tree of `sum(rate(...))` of the tests is accepted, so it
meets the conditions; the tree `rate(query_count[1m])` has no aggregate. -/
theorem success_condition_witness :
    ((nodes taggedRateTree).countP isAggregateExpr = 1 ∧
      (∀ n ∈ nodes taggedRateTree, unsupported n = false) ∧
      (nodes taggedRateTree).countP isCall ≤ 1 ∧
      (∀ pre a post, nodes taggedRateTree = pre ++ a :: post → isAggregateExpr a = true →
        ∀ n ∈ pre, isCall n = false ∧ isVectorSelector n = false)) ∧
    ¬ ∃ rule, queryToRollupRule (fun _ => .ok bareRateTree) "rate(query_count[1m])" =
      .ok (some rule) :=
  ⟨(success_condition (fun _ => .ok taggedRateTree) taggedRateQuery taggedRateTree rfl).1.1
     ⟨_, by rfl⟩,
   fun h => absurd
     ((success_condition (fun _ => .ok bareRateTree) "rate(query_count[1m])" bareRateTree
       rfl).1.1 h).1 (by decide)⟩

/-! ## C12: the aggregations of a rule -/

theorem visitAll_matrix (l : List Node) (st : RuleState)
    (h : ∀ n ∈ l, isMatrixSelector n = true) : visitAll st l = .ok st := by
  induction l with
  | nil => rfl
  | cons n ns ih =>
    have hn := h n (List.mem_cons_self _ _)
    have hv : visit st (some n) = .ok st := by
      cases n <;> try simp [isMatrixSelector] at hn
      unfold visit
      cases st.valid <;> rfl
    rw [visitAll_cons st st n ns hv]
    exact ih (fun m hm => h m (List.mem_cons_of_mem _ hm))

theorem selectorBody_aggregations (ms : List Matcher) (r : RollupOperationConfiguration)
    (filter : String) : (selectorBody ms r filter).1.Aggregations = r.Aggregations := by
  unfold selectorBody
  simp only [metricNameLoop_eq, labelLoop_eq]
  cases (ms.filter (fun l => l.Name = MetricName)).head? <;> rfl

theorem visit_aggregations (op : String) (st : RuleState) (n : Node)
    (h : hasAggregations op st.rollupRule.Transforms) :
    ∃ st', visit st (some n) = .ok st' ∧ hasAggregations op st'.rollupRule.Transforms := by
  by_cases hv : st.valid = false
  · exact ⟨st, visit_invalid st _ hv, h⟩
  · have hv' : st.valid = true := by simpa using hv
    obtain ⟨valid, ⟨filter, ts, name⟩⟩ := st
    simp only at h hv' ⊢
    subst hv'
    obtain ⟨r, hr, h | h⟩ := h
    all_goals
      subst h
      cases n <;>
        simp [visit, hasAggregations, selectorLoop, selectorBody_aggregations, hr] <;>
        split <;> simp_all

theorem visitAll_aggregations (op : String) (l : List Node) : ∀ st : RuleState,
    hasAggregations op st.rollupRule.Transforms →
    ∃ st', visitAll st l = .ok st' ∧ hasAggregations op st'.rollupRule.Transforms := by
  induction l with
  | nil => intro st h; exact ⟨st, rfl, h⟩
  | cons n ns ih =>
    intro st h
    obtain ⟨s1, h1, ha1⟩ := visit_aggregations op st n h
    obtain ⟨s2, h2, ha2⟩ := ih s1 ha1
    exact ⟨s2, by rw [visitAll_cons st s1 n ns h1]; exact h2, ha2⟩

/-- For every rule that `queryToRollupRule` returns, the tree holds exactly one
aggregate node, its operator `op` passes the whitelist check ignoring case, and
the aggregations of the rollup stage of the rule are the list `[op]` with the
operator name as the node holds it. -/
theorem aggregations_as_rendered (ParseExpr : String → Except String Node) (query : String)
    (expr : Node) (rule : RollupRuleConfiguration) (hparse : ParseExpr query = .ok expr)
    (hrule : queryToRollupRule ParseExpr query = .ok (some rule)) :
    ∃ pre post op e p g w r,
      nodes expr = pre ++ .AggregateExpr op e p g w :: post ∧
      (∀ n ∈ pre ++ post, isAggregateExpr n = false) ∧
      ToLower op ∈ ValidAggTypes ∧
      rule.Transforms.filter (fun t => t.Rollup.isSome) = [⟨some r, none⟩] ∧
      r.Aggregations = [op] ∧
      (ToLower op = op → r.Aggregations = [ToLower op]) := by
  obtain ⟨pre, a, post, hl, hpre, ha, hu, hpost, -⟩ :=
    (success_iff_accepted ParseExpr query expr hparse).1 ⟨rule, hrule⟩
  cases a <;> simp [isAggregateExpr] at ha
  rename_i op e p g w
  have hop : ToLower op ∈ ValidAggTypes := by simpa [unsupported] using hu
  have hstep : visit (initialState query) (some (.AggregateExpr op e p g w)) =
      .ok ⟨true, { Name := query, Filter := "",
                   Transforms := [⟨some { Aggregations := [op], MetricName := ToLower op,
                                          GroupBy := [] }, none⟩] }⟩ := by
    simp [visit, initialState, hop]
  obtain ⟨st, hrun, r, hr, hts⟩ := visitAll_aggregations op post
    ⟨true, { Name := query, Filter := "",
             Transforms := [⟨some { Aggregations := [op], MetricName := ToLower op,
                                    GroupBy := [] }, none⟩] }⟩
    ⟨_, rfl, Or.inl rfl⟩
  have hfull : visitAll (initialState query) (nodes expr) = .ok st := by
    rw [hl, visitAll_append, visitAll_matrix pre _ hpre]
    show visitAll (initialState query) (_ :: post) = _
    rw [visitAll_cons _ _ _ post hstep]
    exact hrun
  rw [queryToRollupRule_of_run ParseExpr query expr hparse st hfull] at hrule
  split at hrule
  · simp only [Except.ok.injEq, Option.some.injEq] at hrule
    subst hrule
    refine ⟨pre, post, op, e, p, g, w, r, hl, ?_, hop, ?_, hr, fun h => by rw [h]; exact hr⟩
    · intro n hn
      rcases List.mem_append.1 hn with hn | hn
      · exact ((matrix_iff n).1 (hpre n hn)).2.1
      · exact (hpost n hn).2
    · rcases hts with h | h <;> rw [h] <;> rfl
  · simp at hrule

/-- C12.  For every rule that `queryToRollupRule` returns for a tree of the
parser, whose aggregate operators are the lowercase keywords whatever their
casing in the query text, the tree holds exactly one aggregate node, its
operator passes the whitelist check ignoring case, and the aggregations of the
rollup stage of the rule are the single-element list of the lowercase operator
name. -/
theorem aggregations_lowercase (ParseExpr : String → Except String Node) (query : String)
    (expr : Node) (rule : RollupRuleConfiguration) (hparse : ParseExpr query = .ok expr)
    (hrender : renderedLowercase (nodes expr))
    (hrule : queryToRollupRule ParseExpr query = .ok (some rule)) :
    ∃ pre post op e p g w r,
      nodes expr = pre ++ .AggregateExpr op e p g w :: post ∧
      (∀ n ∈ pre ++ post, isAggregateExpr n = false) ∧
      ToLower op ∈ ValidAggTypes ∧
      rule.Transforms.filter (fun t => t.Rollup.isSome) = [⟨some r, none⟩] ∧
      r.Aggregations = [ToLower op] := by
  obtain ⟨pre, post, op, e, p, g, w, r, hl, hno, hop, hts, -, hlow⟩ :=
    aggregations_as_rendered ParseExpr query expr rule hparse hrule
  have hmem : Node.AggregateExpr op e p g w ∈ nodes expr := by
    rw [hl]; simp
  exact ⟨pre, post, op, e, p, g, w, r, hl, hno, hop, hts,
    hlow (hrender _ hmem op e p g w rfl)⟩

/-- Witness of C12: the query text `SUM(query_count)`, whose tree holds the
operator "sum"; the aggregations of the rule are `["sum"]`. -/
theorem aggregations_lowercase_witness :
    renderedLowercase (nodes sumTree) ∧
    queryToRollupRule (fun _ => .ok sumTree) "SUM(query_count)" =
      .ok (some
        { Name := "SUM(query_count)", Filter := "__name__:query_count",
          Transforms := [⟨some { MetricName := "sum:query_count", GroupBy := [],
                                 Aggregations := ["sum"] }, none⟩] }) ∧
    ∃ pre post op e p g w r,
      nodes sumTree = pre ++ .AggregateExpr op e p g w :: post ∧
      (∀ n ∈ pre ++ post, isAggregateExpr n = false) ∧
      ToLower op ∈ ValidAggTypes ∧
      List.filter (fun t => t.Rollup.isSome)
        [(⟨some { MetricName := "sum:query_count", GroupBy := [],
                  Aggregations := ["sum"] }, none⟩ : TransformConfiguration)] =
        [⟨some r, none⟩] ∧
      r.Aggregations = [ToLower op] := by
  have hlow : renderedLowercase (nodes sumTree) := by
    intro n hn op e p g w h
    have hn' : n = sumTree ∨ n = .VectorSelector "query_count" 0 countMatchers := by
      simpa [sumTree, nodes, nodesOpt] using hn
    rcases hn' with rfl | rfl
    · have hop : op = "sum" := by
        simp only [sumTree, Node.AggregateExpr.injEq] at h
        exact h.1.symm
      rw [hop]
      decide
    · cases h
  exact ⟨hlow, by rfl,
    aggregations_lowercase (fun _ => .ok sumTree) "SUM(query_count)" sumTree
      { Name := "SUM(query_count)", Filter := "__name__:query_count",
        Transforms := [⟨some { MetricName := "sum:query_count", GroupBy := [],
                               Aggregations := ["sum"] }, none⟩] } rfl hlow (by rfl)⟩

/-! ## C11: the filter of a rule -/

/-- One visit from a well-shaped state and the filter: a node other than a
vector selector keeps it, and a vector selector that leaves the state valid
replaces it by the filter of the body of the selector case. -/
theorem visit_filter (st : RuleState) (n : Node) (hw : wellShaped st.rollupRule.Transforms) :
    ∃ st', visit st (some n) = .ok st' ∧
      (isVectorSelector n = false → st'.rollupRule.Filter = st.rollupRule.Filter) ∧
      (∀ name offset ms, n = .VectorSelector name offset ms → st'.valid = true →
        ∃ r, st'.rollupRule.Filter = (selectorBody ms r st.rollupRule.Filter).2) := by
  by_cases hv : st.valid = false
  · refine ⟨st, visit_invalid st _ hv, fun _ => rfl, fun _ _ _ _ h => ?_⟩
    rw [hv] at h; exact absurd h (by simp)
  · have hv' : st.valid = true := by simpa using hv
    obtain ⟨valid, ⟨filter, ts, name⟩⟩ := st
    simp only at hw hv' ⊢
    subst hv'
    rcases hw with h | ⟨r, h⟩ | ⟨r, h⟩ <;> subst h <;> cases n <;>
      simp [visit, isVectorSelector, selectorLoop]
    all_goals first | exact ⟨_, rfl⟩ | (split <;> simp)

theorem visitAll_filter (l : List Node) : ∀ st : RuleState,
    wellShaped st.rollupRule.Transforms → (∀ n ∈ l, isVectorSelector n = false) →
    ∃ st', visitAll st l = .ok st' ∧ wellShaped st'.rollupRule.Transforms ∧
      st'.rollupRule.Filter = st.rollupRule.Filter := by
  induction l with
  | nil => intro st hw _; exact ⟨st, rfl, hw, rfl⟩
  | cons n ns ih =>
    intro st hw hl
    obtain ⟨s1, h1, hf1, -⟩ := visit_filter st n hw
    obtain ⟨s1', h1', hw1, -⟩ := visit_spec st n hw
    rw [h1] at h1'
    cases h1'
    obtain ⟨s2, h2, hw2, hf2⟩ := ih s1 hw1 (fun m hm => hl m (List.mem_cons_of_mem _ hm))
    exact ⟨s2, by rw [visitAll_cons st s1 n ns h1]; exact h2, hw2,
      by rw [hf2, hf1 (hl n (List.mem_cons_self _ _))]⟩

/-- The filter that the body of the selector case leaves, from the empty
filter: the filter of the specification with the first metric name. -/
theorem selectorBody_filter (ms : List Matcher) (r : RollupOperationConfiguration) :
    (selectorBody ms r "").2 = specFilter (firstMetricName ms) ms := by
  unfold selectorBody
  simp only [metricNameLoop_eq, labelLoop_eq, firstMetricName, specFilter]
  cases hfl : (ms.filter (fun l => l.Name = MetricName)).head? with
  | none =>
    simp only [Option.map_none', Option.toList, List.map_nil, List.nil_append,
      String.empty_append]
    have := Trim_join_trailing ((otherMatchers ms).map (fun l => l.Name ++ ":" ++ l.Value))
    simpa [List.map_map, Function.comp_def] using this
  | some l =>
    simp only [Option.map_some', Option.toList, List.map_cons, List.map_nil,
      List.singleton_append, String.empty_append]
    have := Trim_join_trailing
      (("__name__:" ++ l.Value) :: (otherMatchers ms).map (fun l => l.Name ++ ":" ++ l.Value))
    rw [← this]
    congr 1
    apply String.ext
    simp [String.data_join, List.map_map, Function.comp_def, List.append_assoc]

/-- C11, as amended.  For every rule that `queryToRollupRule` returns for a tree
with one vector selector, the filter is the token "__name__:value" of the first
matcher on the metric name, if there is one, followed by the tokens
"name:value" of the matchers on other labels in the order of the list of
matchers, joined by single spaces, without leading or trailing space. -/
theorem filter_of_rule (ParseExpr : String → Except String Node) (query : String)
    (expr : Node) (rule : RollupRuleConfiguration) (pre post : List Node) (name : String)
    (offset : Int) (ms : List Matcher) (hparse : ParseExpr query = .ok expr)
    (hnodes : nodes expr = pre ++ .VectorSelector name offset ms :: post)
    (hsel : ∀ n ∈ pre ++ post, isVectorSelector n = false)
    (hrule : queryToRollupRule ParseExpr query = .ok (some rule)) :
    rule.Filter = specFilter (firstMetricName ms) ms := by
  obtain ⟨s1, h1, hw1, hf1⟩ := visitAll_filter pre (initialState query) (Or.inl rfl)
    (fun n hn => hsel n (List.mem_append_left _ hn))
  obtain ⟨s2, h2, -, hf2⟩ := visit_filter s1 (.VectorSelector name offset ms) hw1
  obtain ⟨s2', h2', hw2, -⟩ := visit_spec s1 (.VectorSelector name offset ms) hw1
  rw [h2] at h2'
  cases h2'
  obtain ⟨s3, h3, -, hf3⟩ := visitAll_filter post s2 hw2
    (fun n hn => hsel n (List.mem_append_right _ hn))
  have hfull : visitAll (initialState query) (nodes expr) = .ok s3 := by
    rw [hnodes, visitAll_append, h1]
    show visitAll s1 (_ :: post) = _
    rw [visitAll_cons s1 s2 _ post h2]
    exact h3
  rw [queryToRollupRule_of_run ParseExpr query expr hparse s3 hfull] at hrule
  split at hrule
  · rename_i hv3
    simp only [Except.ok.injEq, Option.some.injEq] at hrule
    subst hrule
    have hv2 : s2.valid = true := by
      by_contra hc
      have hc' : s2.valid = false := by simpa using hc
      rw [visitAll_invalid s2 post hc'] at h3
      cases h3
      rw [hv3] at hc'
      exact absurd hc' (by simp)
    obtain ⟨r, hr⟩ := hf2 name offset ms rfl hv2
    rw [hf3, hr, hf1]
    exact selectorBody_filter ms r
  · simp at hrule

/-- Witness of C11: the second case of `TestRollupRules`, where the matcher on
the metric name is the last of the list and its token the first of the filter. -/
theorem filter_of_rule_witness :
    ("__name__:query_duration_seconds tag1:foo tag2:bar" : String) =
      specFilter (firstMetricName taggedMatchers) taggedMatchers :=
  filter_of_rule (fun _ => .ok taggedRateTree) taggedRateQuery taggedRateTree
    { Name := taggedRateQuery,
      Filter := "__name__:query_duration_seconds tag1:foo tag2:bar",
      Transforms :=
        [⟨none, some ⟨"Increase"⟩⟩,
         ⟨some { MetricName := "sum:rate:query_duration_seconds:tag1:foo:tag2:bar",
                 GroupBy := ["tag1", "tag2"], Aggregations := ["sum"] }, none⟩,
         ⟨none, some ⟨"Add"⟩⟩] }
    [taggedRateTree,
     .Call "rate" [.MatrixSelector (.VectorSelector "query_duration_seconds" 0 taggedMatchers)
       60000000000],
     .MatrixSelector (.VectorSelector "query_duration_seconds" 0 taggedMatchers) 60000000000]
    [] "query_duration_seconds" 0 taggedMatchers rfl rfl (by decide) (by rfl)

/-- Counterexample to C11 as stated: in the second case of `TestRollupRules` the
list of matchers is tag1, tag2, `__name__` (the parser appends the matcher on
the metric name), and the filter of the rule starts with the token of
`__name__`; it is not the tokens in the order of the list. -/
theorem filter_not_in_list_order :
    queryToRollupRule (fun _ => .ok taggedRateTree) taggedRateQuery =
      .ok (some
        { Name := taggedRateQuery,
          Filter := "__name__:query_duration_seconds tag1:foo tag2:bar",
          Transforms :=
            [⟨none, some ⟨"Increase"⟩⟩,
             ⟨some { MetricName := "sum:rate:query_duration_seconds:tag1:foo:tag2:bar",
                     GroupBy := ["tag1", "tag2"], Aggregations := ["sum"] }, none⟩,
             ⟨none, some ⟨"Add"⟩⟩] }) ∧
    listOrderFilter taggedMatchers = "tag1:foo tag2:bar __name__:query_duration_seconds" ∧
    ("__name__:query_duration_seconds tag1:foo tag2:bar" : String) ≠
      listOrderFilter taggedMatchers := by
  refine ⟨by rfl, by decide, by decide⟩

end Hca
